import Mathlib

/-!
Verification of the alaya vault-indexing core against its specification.

This file shallowly embeds the Python source of the repository
(`src/alaya/...`) into Lean: strings are Lean `String`s manipulated through
small executable models of the Python string primitives actually used by the
code (`splitlines`, `strip`, `split`, `join`, `startswith`, `in`, `lower`,
`pathlib` name helpers, `re` tag patterns), floats are idealised as `ℚ`,
fallible calls are `Except Unit`, and external capabilities (embedding
backend, ANN distance, content hashing, the clock) are abstracted as explicit
function parameters.  Each definition is a direct translation of the
correspondingly named Python function.
-/

namespace Alaya

/-! ## Python string primitives -/

/-- Python whitespace class used by `str.strip()` / `str.split()`. -/
def isWS (c : Char) : Bool :=
  c = ' ' ∨ c = '\t' ∨ c = '\n' ∨ c = '\r' ∨ c = '\x0b' ∨ c = '\x0c'

/-- Helper for `splitLines`: splits a character list at newlines, keeping a
final empty group for a trailing newline (dropped by the caller). -/
def splitLinesGo : List Char → List (List Char)
  | [] => [[]]
  | '\n' :: rest => [] :: splitLinesGo rest
  | c :: rest =>
    match splitLinesGo rest with
    | [] => [[c]]
    | g :: gs => (c :: g) :: gs

/-- Python `str.splitlines()` (for `\n`-separated text): no trailing empty
line, and the empty string yields `[]`. -/
def splitLines (s : String) : List String :=
  if s.data = [] then []
  else
    let gs := splitLinesGo s.data
    let gs := if gs.getLast? = some [] then gs.dropLast else gs
    gs.map String.mk

/-- Python `str.strip()`: drop whitespace from both ends. -/
def pyStrip (s : String) : String :=
  String.mk (((s.data.dropWhile isWS).reverse.dropWhile isWS).reverse)

/-- Python `str.lstrip("\n")`. -/
def pyLStripNL (s : String) : String :=
  String.mk (s.data.dropWhile (· = '\n'))

/-- Helper for `pySplitWS`: the accumulator is the current word, reversed. -/
def pySplitWSGo : List Char → List Char → List String
  | [], acc => if acc = [] then [] else [String.mk acc.reverse]
  | c :: rest, acc =>
    if isWS c then
      (if acc = [] then pySplitWSGo rest [] else String.mk acc.reverse :: pySplitWSGo rest [])
    else pySplitWSGo rest (c :: acc)

/-- Python `str.split()` (no argument): whitespace-separated words, empties
dropped. -/
def pySplitWS (s : String) : List String := pySplitWSGo s.data []

/-- Python `sep.join(xs)`. -/
def pyJoin (sep : String) : List String → String
  | [] => ""
  | [x] => x
  | x :: xs => x ++ sep ++ pyJoin sep xs

/-- Python `s.startswith(p)`. -/
def pyStartsWith (s p : String) : Bool := p.data.isPrefixOf s.data

/-- Python `sub in s` (substring containment). -/
def containsSub (sub s : String) : Bool :=
  s.data.tails.any (fun t => sub.data.isPrefixOf t)

/-- Python `str.lower()` (ASCII idealisation). -/
def pyLower (s : String) : String := String.mk (s.data.map Char.toLower)

/-- Index of the first occurrence of `sub` in a character list
(Python `str.find` on the suffix it is applied to). -/
def findSubIdx : List Char → List Char → Option ℕ
  | l, sub =>
    match l with
    | [] => if sub = [] then some 0 else none
    | _ :: rest =>
      if sub.isPrefixOf l then some 0
      else (findSubIdx rest sub).map (· + 1)

/-- Expression `path.split("/")[0] if "/" in path else ""`, used by the
source for a chunk's top-level directory. -/
def directory_of (path : String) : String :=
  if path.data.contains '/' then String.mk (path.data.takeWhile (· ≠ '/'))
  else ""

/-- Final path component (Python `Path(p).name`). -/
def path_name (path : String) : String :=
  String.mk ((path.data.reverse.takeWhile (· ≠ '/')).reverse)

/-- Python `Path(p).suffix`: the final extension of the last component,
empty when the only dot is leading or trailing. -/
def path_suffix (path : String) : String :=
  let name := (path_name path).data
  let ext := name.reverse.takeWhile (· ≠ '.')
  if ext.length = name.length then ""
  else if ext.length = 0 then ""
  else if ext.length + 1 = name.length then ""
  else String.mk ('.' :: ext.reverse)

/-- Python `Path(p).stem`: last component without its final suffix. -/
def path_stem (path : String) : String :=
  let name := (path_name path).data
  String.mk (name.take (name.length - (path_suffix path).data.length))

/-! ## Python dict as an insertion-ordered association list -/

/-- Python `d[k] = v`: overwrite in place, else append. -/
def dict_set (m : List (String × String)) (k v : String) : List (String × String) :=
  if m.any (fun p => p.1 = k) then m.map (fun p => if p.1 = k then (k, v) else p)
  else m ++ [(k, v)]

/-- Python `d.get(k, default)`. -/
def dict_get (m : List (String × String)) (k default : String) : String :=
  ((m.find? (fun p => p.1 = k)).map Prod.snd).getD default

/-- Python `d.pop(k, default)` (value part). -/
def dict_pop_val (m : List (String × String)) (k default : String) : String :=
  dict_get m k default

/-- Python `d.pop(k, default)` (remaining dict part). -/
def dict_pop_rest (m : List (String × String)) (k : String) : List (String × String) :=
  m.filter (fun p => ¬ p.1 = k)

/-! ## Inline-tag regular expressions

The source matches hashtag lines with `re`; the character class `[\w-]` is
modelled (ASCII idealisation) by `isWordC`, and the two anchored patterns by
explicit deterministic automata (neither pattern needs backtracking). -/

/-- Character class `[\w-]`. -/
def isWordC (c : Char) : Bool := c.isAlphanum ∨ c = '_' ∨ c = '-'

/-- State for `re.findall(r"#([\w-]+)", s)`: `none` outside a candidate tag,
`some w` when word characters `w` (reversed) follow a `#`. -/
def findTagsGo : List Char → Option (List Char) → List String → List String
  | [], none, acc => acc.reverse
  | [], some w, acc => (if w = [] then acc else String.mk w.reverse :: acc).reverse
  | c :: rest, none, acc =>
    if c = '#' then findTagsGo rest (some []) acc else findTagsGo rest none acc
  | c :: rest, some w, acc =>
    if isWordC c then findTagsGo rest (some (c :: w)) acc
    else
      let acc1 := if w = [] then acc else String.mk w.reverse :: acc
      if c = '#' then findTagsGo rest (some []) acc1 else findTagsGo rest none acc1

/-- Python `re.findall(r"#([\w-]+)", s)`. -/
def findTags (s : String) : List String := findTagsGo s.data none []

/-- States of the anchored tag-line automata. -/
inductive TagSt
  | start
  | hash
  | word
  | afterSp
deriving DecidableEq

/-- Automaton for the embedder's `re.match(r"^(#[\w-]+ ?)+$", s)`:
groups `#word` separated by at most one space. -/
def embTagLineGo : List Char → TagSt → Bool
  | [], st => st = TagSt.word ∨ st = TagSt.afterSp
  | c :: rest, TagSt.start => c = '#' ∧ embTagLineGo rest TagSt.hash
  | c :: rest, TagSt.hash => isWordC c ∧ embTagLineGo rest TagSt.word
  | c :: rest, TagSt.word =>
    if isWordC c then embTagLineGo rest TagSt.word
    else if c = '#' then embTagLineGo rest TagSt.hash
    else if c = ' ' then embTagLineGo rest TagSt.afterSp
    else false
  | c :: rest, TagSt.afterSp => c = '#' ∧ embTagLineGo rest TagSt.hash

/-- Embedder tag-line test (`embedder._parse_inline_tags`). -/
def embTagLineOk (s : String) : Bool := embTagLineGo s.data TagSt.start

/-- Automaton for the vault's `re.fullmatch(r"(#[\w-]+ *)+", s)`:
groups `#word` separated by any number of spaces. -/
def vaultTagLineGo : List Char → TagSt → Bool
  | [], st => st = TagSt.word ∨ st = TagSt.afterSp
  | c :: rest, TagSt.start => c = '#' ∧ vaultTagLineGo rest TagSt.hash
  | c :: rest, TagSt.hash => isWordC c ∧ vaultTagLineGo rest TagSt.word
  | c :: rest, TagSt.word =>
    if isWordC c then vaultTagLineGo rest TagSt.word
    else if c = '#' then vaultTagLineGo rest TagSt.hash
    else if c = ' ' then vaultTagLineGo rest TagSt.afterSp
    else false
  | c :: rest, TagSt.afterSp =>
    if c = ' ' then vaultTagLineGo rest TagSt.afterSp
    else c = '#' ∧ vaultTagLineGo rest TagSt.hash

/-- Vault tag-line test (`vault._parse_inline_tags`). -/
def vaultTagLineOk (s : String) : Bool := vaultTagLineGo s.data TagSt.start

/-- Stripped first non-empty line of a body (both `_parse_inline_tags`
implementations inspect only this line, then `break`). -/
def firstNonEmptyLine (body : String) : Option String :=
  ((splitLines body).find? (fun l => ¬ pyStrip l = "")).map pyStrip

/-- Embedder `_parse_inline_tags` (`embedder.py`). -/
def parse_inline_tags_e (body : String) : List String :=
  match firstNonEmptyLine body with
  | none => []
  | some stripped =>
    let tags := findTags stripped
    if ¬ tags = [] ∧ embTagLineOk stripped then tags else []

/-- Vault `_parse_inline_tags` (`vault.py`): long lines skipped, at most 50
tags returned. -/
def parse_inline_tags_v (body : String) : List String :=
  match firstNonEmptyLine body with
  | none => []
  | some stripped =>
    if stripped.data.length > 500 then []
    else
      let tags := findTags stripped
      if ¬ tags = [] ∧ vaultTagLineOk stripped then tags.take 50 else []

/-! ## Frontmatter parsing and the index-time chunker (`embedder.py`) -/

/-- Chunk record (`embedder.Chunk`). -/
structure Chunk where
  path : String
  title : String
  tags : List String
  directory : String
  modified_date : String
  chunk_index : ℕ
  text : String
deriving DecidableEq

/-- Parse one frontmatter line `key: value` into the metadata dict
(lines without a colon are skipped). -/
def fmLineStep (m : List (String × String)) (line : String) : List (String × String) :=
  if line.data.contains ':' then
    let k := line.data.takeWhile (· ≠ ':')
    let v := line.data.drop (k.length + 1)
    dict_set m (pyStrip (String.mk k)) (pyStrip (String.mk v))
  else m

/-- Embedder `_parse_frontmatter`: YAML-ish metadata block between a leading
`---` and the next line starting `---`; returns `(metadata, body)`. -/
def parse_frontmatter (content : String) : List (String × String) × String :=
  if ¬ pyStartsWith content "---" then ([], content)
  else
    match findSubIdx (content.data.drop 3) "\n---".data with
    | none => ([], content)
    | some i =>
      let fm_block := pyStrip (String.mk ((content.data.drop 3).take i))
      let body := pyLStripNL (String.mk ((content.data.drop 3).drop (i + 4)))
      ((splitLines fm_block).foldl fmLineStep [], body)

/-- Helper shared by the `## `/`### ` section loops: `True` iff the pending
`current_lines` should be flushed (`current_lines and
"".join(current_lines).strip()`). -/
def sectionFlushable (current : List String) : Bool :=
  ¬ current = [] ∧ ¬ pyStrip (pyJoin "" current) = ""

/-- Section-splitting loop shared verbatim by `embedder.chunk_note`,
`chunking.SectionChunker` (`marker = "## "`) and `chunking.DailyNoteChunker`
(`marker = "### "`). -/
def split_sections_go (marker : String) (header : String) (current : List String) :
    List String → List (String × List String)
  | [] => if sectionFlushable current then [(header, current)] else []
  | l :: rest =>
    if pyStartsWith l marker then
      (if sectionFlushable current then [(header, current)] else []) ++
        split_sections_go marker (pyStrip (String.mk (l.data.drop marker.data.length))) [] rest
    else split_sections_go marker header (current ++ [l]) rest

/-- Split body lines into `(header, lines)` sections at lines starting with
`marker`. -/
def split_sections (marker : String) (lines : List String) : List (String × List String) :=
  split_sections_go marker "" [] lines

/-- Embedder `chunk_note`: the chunker actually used at index time
(by the reindexer, the watcher and the event subscriber).  Splits the body
on `## ` headers; no code-fence awareness. -/
def chunk_note (path content : String) : List Chunk :=
  let mb := parse_frontmatter content
  let title := dict_get mb.1 "title" (path_stem path)
  let date := dict_get mb.1 "date" ""
  let directory := directory_of path
  let tags := parse_inline_tags_e mb.2
  let sections := split_sections "## " (splitLines mb.2)
  if sections = [] then
    [{ path := path, title := title, tags := tags, directory := directory,
       modified_date := date, chunk_index := 0, text := pyStrip content }]
  else
    sections.enum.filterMap (fun p =>
      let text := pyStrip (pyJoin "\n" p.2.2)
      if text = "" then none
      else some { path := path, title := title, tags := tags, directory := directory,
                  modified_date := date, chunk_index := p.1,
                  text := (if ¬ p.2.1 = "" then p.2.1 ++ "\n" else "") ++ text })

/-! ## Strategy chunkers (`chunking.py`) and vault note parsing (`vault.py`) -/

/-- Chunking configuration (`chunking.ChunkConfig` defaults). -/
structure ChunkConfig where
  max_tokens : ℕ := 512
  overlap_tokens : ℕ := 50
  min_chunk_tokens : ℕ := 30
deriving DecidableEq

/-- Token estimate `int(len(text.split()) * 1.3)` (floats idealised in `ℚ`). -/
def approx_tokens (text : String) : ℕ := (pySplitWS text).length * 13 / 10

/-- Parsed note metadata (`vault.NoteMeta`). -/
structure NoteMeta where
  title : String
  date : String
  tags : List String
  extra : List (String × String)
  body : String

/-- Vault `parse_note`: frontmatter fields popped into the record, inline
tags used when the frontmatter has no `tags` entry. -/
def parse_note (content : String) : NoteMeta :=
  let mb := parse_frontmatter content
  let title := dict_pop_val mb.1 "title" ""
  let date := dict_pop_val mb.1 "date" ""
  let tags_raw := dict_pop_val mb.1 "tags" ""
  let tags := if ¬ tags_raw = "" then pySplitWS tags_raw else parse_inline_tags_v mb.2
  { title := title, date := date, tags := tags,
    extra := dict_pop_rest (dict_pop_rest (dict_pop_rest mb.1 "title") "date") "tags",
    body := mb.2 }

/-- Chunk constructor `chunking._make_chunk` (note the `text.strip()`). -/
def make_chunk (path text : String) (idx : ℕ) (title : String) (tags : List String)
    (date : String) : Chunk :=
  { path := path, title := title, tags := tags, directory := directory_of path,
    modified_date := date, chunk_index := idx, text := pyStrip text }

/-- Title fallback `note.title or Path(path).stem` shared by all strategies. -/
def strategyTitle (path : String) (note : NoteMeta) : String :=
  if note.title = "" then path_stem path else note.title

/-- State of the paragraph-extraction loop in `chunking._extract_paragraphs`:
emitted line groups, pending lines, inside-code-fence flag. -/
def extractGroupsGo (current : List String) (in_code : Bool) :
    List String → List (List String)
  | [] => if ¬ current = [] then [current] else []
  | l :: rest =>
    if pyStartsWith l "```" then extractGroupsGo (current ++ [l]) (!in_code) rest
    else if in_code then extractGroupsGo (current ++ [l]) in_code rest
    else if pyStrip l = "" ∧ ¬ current = [] then
      current :: extractGroupsGo [] in_code rest
    else extractGroupsGo (current ++ [l]) in_code rest

/-- Line groups flushed by `chunking._extract_paragraphs` (before the
join/strip/drop-empty step). -/
def extract_groups (lines : List String) : List (List String) :=
  extractGroupsGo [] false lines

/-- Chunking `_extract_paragraphs`: split into paragraphs on blank lines,
keeping code fences atomic; blocks that strip to nothing are dropped. -/
def extract_paragraphs (text : String) : List String :=
  (extract_groups (splitLines text)).filterMap (fun g =>
    let block := pyStrip (pyJoin "\n" g)
    if block = "" then none else some block)

/-- Accumulator step of `chunking._split_on_paragraphs` (and of the merge
loop in `SemanticChunker`): pack paragraphs greedily under `max_tokens`. -/
def packParasStep (max_tokens : ℕ) (st : List String × List String × ℕ) (para : String) :
    List String × List String × ℕ :=
  let tokens := approx_tokens para
  if st.2.2 + tokens > max_tokens ∧ ¬ st.2.1 = [] then
    (st.1 ++ [pyJoin "\n\n" st.2.1], [para], tokens)
  else (st.1, st.2.1 ++ [para], st.2.2 + tokens)

/-- Chunking `_split_on_paragraphs`. -/
def split_on_paragraphs (text : String) (config : ChunkConfig) : List String :=
  let st := (extract_paragraphs text).foldl (packParasStep config.max_tokens) ([], [], 0)
  let result := if ¬ st.2.1 = [] then st.1 ++ [pyJoin "\n\n" st.2.1] else st.1
  if result = [] then [text] else result

/-- Section text with its header line prepended
(`full_text = f"{header}\n{text}" if header else text`). -/
def sectionFullText (s : String × List String) : String :=
  let text := pyStrip (pyJoin "\n" s.2)
  (if ¬ s.1 = "" then s.1 ++ "\n" else "") ++ text

/-- Per-section step of `SectionChunker.chunk`: emit the section whole, or
sub-split on paragraphs when it exceeds the token ceiling. -/
def sectionChunkStep (path title : String) (tags : List String) (date : String)
    (config : ChunkConfig) (st : List Chunk × ℕ) (s : String × List String) :
    List Chunk × ℕ :=
  let text := pyStrip (pyJoin "\n" s.2)
  if text = "" then st
  else
    let full_text := sectionFullText s
    if approx_tokens full_text > config.max_tokens then
      (split_on_paragraphs full_text config).foldl
        (fun st2 sub => (st2.1 ++ [make_chunk path sub st2.2 title tags date], st2.2 + 1)) st
    else (st.1 ++ [make_chunk path full_text st.2 title tags date], st.2 + 1)

/-- Chunking `SectionChunker.chunk`: split on `## ` headers, sub-splitting
long sections on paragraph boundaries. -/
def sectionChunkerChunk (path content : String) (config : ChunkConfig) : List Chunk :=
  let note := parse_note content
  let title := strategyTitle path note
  let raw_sections := split_sections "## " (splitLines note.body)
  if raw_sections = [] then [make_chunk path (pyStrip content) 0 title note.tags note.date]
  else
    let chunks :=
      (raw_sections.foldl (sectionChunkStep path title note.tags note.date config) ([], 0)).1
    if chunks = [] then [make_chunk path (pyStrip content) 0 title note.tags note.date]
    else chunks

/-- Chunking `DailyNoteChunker.chunk`: one chunk per `### ` entry. -/
def dailyNoteChunkerChunk (path content : String) : List Chunk :=
  let note := parse_note content
  let title := strategyTitle path note
  let raw_sections := split_sections "### " (splitLines note.body)
  if raw_sections = [] then [make_chunk path (pyStrip content) 0 title note.tags note.date]
  else
    let chunks := raw_sections.enum.filterMap (fun p =>
      let text := pyStrip (pyJoin "\n" p.2.2)
      if text = "" then none
      else some (make_chunk path ((if ¬ p.2.1 = "" then p.2.1 ++ "\n" else "") ++ text)
        p.1 title note.tags note.date))
    if chunks = [] then [make_chunk path (pyStrip content) 0 title note.tags note.date]
    else chunks

/-- Per-window step of `SlidingWindowChunker.chunk`: keep a window when it
meets the minimum size or is the first produced fragment. -/
def slidingStep (path title : String) (tags : List String) (date : String)
    (config : ChunkConfig) (words : List String) (window : ℕ)
    (st : List Chunk × ℕ) (start : ℕ) : List Chunk × ℕ :=
  let text := pyJoin " " ((words.drop start).take window)
  if approx_tokens text ≥ config.min_chunk_tokens ∨ st.1 = [] then
    (st.1 ++ [make_chunk path text st.2 title tags date], st.2 + 1)
  else st

/-- Chunking `SlidingWindowChunker.chunk`: fixed-size overlapping word
windows; the `while start < len(words)` loop is rendered as its iteration
sequence `start = 0, step, 2·step, …`. -/
def slidingWindowChunkerChunk (path content : String) (config : ChunkConfig) : List Chunk :=
  let note := parse_note content
  let title := strategyTitle path note
  let words := pySplitWS note.body
  if words = [] then [make_chunk path (pyStrip content) 0 title note.tags note.date]
  else
    let window := max 1 (config.max_tokens * 10 / 13)
    let overlap := config.overlap_tokens * 10 / 13
    let step := max 1 (window - overlap)
    let starts := (List.range ((words.length + step - 1) / step)).map (· * step)
    (starts.foldl (slidingStep path title note.tags note.date config words window) ([], 0)).1

/-- Closed set of chunking strategies (`chunking.ChunkingStrategy`
implementations reachable from `select_strategy`). -/
inductive Strategy
  | daily
  | section
  | sliding
deriving DecidableEq

/-- Chunking `select_strategy`: pure function of path and content. -/
def select_strategy (path content : String) : Strategy :=
  if directory_of path = "daily" then Strategy.daily
  else if containsSub "## " content then Strategy.section
  else Strategy.sliding

/-- Dispatch a selected strategy (`strategy.chunk(path, content, config)`). -/
def chunk_with : Strategy → String → String → ChunkConfig → List Chunk
  | Strategy.daily, path, content, _ => dailyNoteChunkerChunk path content
  | Strategy.section, path, content, config => sectionChunkerChunk path content config
  | Strategy.sliding, path, content, config => slidingWindowChunkerChunk path content config

/-! ## Vector store (`store.py`)

The LanceDB table is modelled as an insertion-ordered list of rows;
`table.delete(pred)` filters, `table.add(rows)` appends, and the ANN query
`table.search(vec)` is idealised as a stable ascending sort by the external
distance oracle.  The modern schema (with the `embedding_model` column) is
assumed. -/

/-- Persisted index row (`store.py` schema). -/
structure Row where
  path : String
  title : String
  directory : String
  tags : String
  modified_date : String
  chunk_index : ℕ
  text : String
  vector : List ℚ
  embedding_model : String
deriving DecidableEq

/-- Store `upsert_note`: delete all rows for `path`, then insert the new
chunk set (zero chunks ⇒ plain delete). -/
def upsert_note (active_model : String) (path : String) (chunks : List Chunk)
    (embeddings : List (List ℚ)) (store : List Row) : List Row :=
  let store1 := store.filter (fun r => ¬ r.path = path)
  if chunks = [] then store1
  else
    store1 ++ (chunks.zip embeddings).map (fun ce =>
      { path := ce.1.path, title := ce.1.title, directory := ce.1.directory,
        tags := pyJoin "," ce.1.tags, modified_date := ce.1.modified_date,
        chunk_index := ce.1.chunk_index, text := ce.1.text, vector := ce.2,
        embedding_model := active_model })

/-- Store `delete_note_from_index`. -/
def delete_note_from_index (path : String) (store : List Row) : List Row :=
  store.filter (fun r => ¬ r.path = path)

/-- Row rewrite performed by `update_metadata` on each fetched row. -/
def metadataRewrite (new_path : String) (new_title : Option String)
    (new_tags : Option (List String)) (r : Row) : Row :=
  { r with path := new_path, directory := directory_of new_path,
           title := new_title.getD r.title,
           tags := (new_tags.map (pyJoin ",")).getD r.tags }

/-- Store `update_metadata`: fetch up to 10000 rows for `old_path`
(`.limit(10000)`), delete them all, re-add the fetched rows with
path/directory/title/tags rewritten; no-op when no rows match. -/
def update_metadata (old_path new_path : String) (new_title : Option String)
    (new_tags : Option (List String)) (store : List Row) : List Row :=
  let existing := (store.filter (fun r => r.path = old_path)).take 10000
  if existing = [] then store
  else
    store.filter (fun r => ¬ r.path = old_path) ++
      existing.map (metadataRewrite new_path new_title new_tags)

/-! ## Hybrid search scoring (`store.hybrid_search`) -/

/-- Banker's rounding of a rational to the nearest integer
(Python `round`, half to even). -/
def roundHalfEven (x : ℚ) : ℤ :=
  let f := ⌊x⌋
  let r := x - f
  if r < 1 / 2 then f
  else if 1 / 2 < r then f + 1
  else if f % 2 = 0 then f else f + 1

/-- Python `round(x, 3)` under the rational idealisation of floats. -/
def round3 (x : ℚ) : ℚ := (roundHalfEven (x * 1000) : ℚ) / 1000

/-- Keyword boost: `sum(1 for term in query.lower().split() if term in text)`
where `text` is the lowered chunk text. -/
def keyword_boost (query text_lower : String) : ℕ :=
  (pySplitWS (pyLower query)).countP (fun term => containsSub term text_lower)

/-- Final score of a candidate row:
`min(1, max(0, 1 - distance) + keyword_boost * 0.05)`. -/
def final_score (query text : String) (dist : ℚ) : ℚ :=
  min 1 (max 0 (1 - dist) + (keyword_boost query (pyLower text) : ℚ) * (5 / 100))

/-- Search result entry (`{path, title, directory, score, text}`). -/
structure SRes where
  path : String
  title : String
  directory : String
  score : ℚ
  text : String
deriving DecidableEq

/-- Stable-ascending insertion by distance (semantics of the idealised ANN
candidate ordering). -/
def insertByDist (distF : Row → ℚ) (r : Row) : List Row → List Row
  | [] => [r]
  | y :: ys => if distF r ≤ distF y then r :: y :: ys else y :: insertByDist distF r ys

/-- Stable sort of the store by ascending distance to the query vector. -/
def sortByDist (distF : Row → ℚ) : List Row → List Row
  | [] => []
  | x :: xs => insertByDist distF x (sortByDist distF xs)

/-- Python dict assignment `seen[path] = entry` when `path` is present:
replace the (unique) entry in place. -/
def seenSet : List SRes → SRes → List SRes
  | [], o => [o]
  | x :: xs, o => if x.path = o.path then o :: xs else x :: seenSet xs o

/-- Dedup step of `hybrid_search`: first chunk of a path is kept; a later
chunk replaces it when its (exact) final score beats the stored (rounded)
score. -/
def dedupStep (distF : Row → ℚ) (query : String) (seen : List SRes) (r : Row) : List SRes :=
  let fs := final_score query r.text (distF r)
  match seen.find? (fun o => o.path = r.path) with
  | none =>
    seen ++ [{ path := r.path, title := r.title, directory := r.directory,
               score := round3 fs, text := r.text }]
  | some cur =>
    if cur.score < fs then
      seenSet seen { path := r.path, title := r.title, directory := r.directory,
                     score := round3 fs, text := r.text }
    else seen

/-- Stable-descending insertion by score (semantics of Python
`sorted(..., reverse=True)`). -/
def insertByScore (o : SRes) : List SRes → List SRes
  | [] => [o]
  | y :: ys => if y.score ≤ o.score then o :: y :: ys else y :: insertByScore o ys

/-- Stable sort of the deduplicated results by descending score. -/
def sortByScore : List SRes → List SRes
  | [] => []
  | x :: xs => insertByScore x (sortByScore xs)

/-- Store `hybrid_search` (no directory/tag filters): empty store short
circuit, `limit * 4` candidate over-fetch, per-row scoring, per-path dedup,
stable descending sort, truncation to `limit`. -/
def hybrid_search (distF : Row → ℚ) (query : String) (store : List Row)
    (limit : ℕ) : List SRes :=
  if store.length = 0 then []
  else
    let results := (sortByDist distF store).take (limit * 4)
    let seen := results.foldl (dedupStep distF query) []
    (sortByScore seen).take limit

/-! ## Event bus (`events.py`) -/

/-- Note-mutation event kinds (`events.EventType`, `enum.auto()` members). -/
inductive EventType
  | CREATED
  | MODIFIED
  | DELETED
  | MOVED
deriving DecidableEq

/-- Note-mutation event (`events.NoteEvent`). -/
structure NoteEvent where
  event_type : EventType
  path : String
  old_path : Option String := none
deriving DecidableEq

/-- Registered listener, abstracted to an identity plus the verdict of
whether its callback raises on a given event. -/
structure Listener where
  id : ℕ
  fails : NoteEvent → Bool

/-- Event bus `emit`: fire the snapshot of listeners in order, stopping with
the exception of the first listener that raises.  Returns the invocations
actually performed (listener id paired with the event it received) and the
outcome. -/
def emit : List Listener → NoteEvent → List (ℕ × NoteEvent) × Except Unit Unit
  | [], _ => ([], Except.ok ())
  | l :: rest, ev =>
    if l.fails ev then ([(l.id, ev)], Except.error ())
    else
      let tail := emit rest ev
      ((l.id, ev) :: tail.1, tail.2)

/-! ## Index-update subscriber (`server._register_index_listener`)

The handler's branch conditions compare an `EventType` enum member against
string literals (`event.event_type in ("created", "modified")` etc.), so the
embedding carries a miniature semantics of Python `==` / `in` over the value
domain actually involved (enum members and `str`). -/

/-- Python values appearing in the handler's comparisons. -/
inductive PyVal
  | vStr (s : String)
  | vEnum (e : EventType)

/-- Python `==` on the relevant values: `Enum.__eq__` is identity-based, so
an enum member never equals a `str`. -/
def pyEq : PyVal → PyVal → Bool
  | PyVal.vStr a, PyVal.vStr b => a = b
  | PyVal.vEnum a, PyVal.vEnum b => a = b
  | _, _ => false

/-- Python `x in (a, b)` membership by `==`. -/
def pyIn (v : PyVal) (tup : List PyVal) : Bool := tup.any (pyEq v)

/-- Index-side state touched by the subscriber: the vector store and the
watcher's recently-indexed marks (most recent first). -/
structure IndexState where
  store : List Row
  marked : List String
deriving DecidableEq

/-- The `_handle` callback registered by `_register_index_listener`
(modern schema, watcher handler present): branches exactly as in the
source, including the enum-vs-string comparisons; any exception inside a
branch is caught and logged, leaving the state unchanged. -/
def handle (readF : String → Except Unit String)
    (embedF : List Chunk → Except Unit (List (List ℚ))) (active_model : String)
    (ev : NoteEvent) (st : IndexState) : IndexState :=
  if pyIn (PyVal.vEnum ev.event_type) [PyVal.vStr "created", PyVal.vStr "modified"] then
    match readF ev.path with
    | Except.error _ => st
    | Except.ok content =>
      let chunks := chunk_note ev.path content
      match embedF chunks with
      | Except.error _ => st
      | Except.ok embeddings =>
        { store := upsert_note active_model ev.path chunks embeddings st.store,
          marked := ev.path :: st.marked }
  else if pyEq (PyVal.vEnum ev.event_type) (PyVal.vStr "deleted") then
    { store := delete_note_from_index ev.path st.store, marked := ev.path :: st.marked }
  else if pyEq (PyVal.vEnum ev.event_type) (PyVal.vStr "moved") then
    { store := update_metadata (ev.old_path.getD "") ev.path none none st.store,
      marked := ev.path :: (match ev.old_path with
                            | some op => [op]
                            | none => []) ++ st.marked }
  else st

/-! ## Reindexer (`reindex.py`)

Vault enumeration is abstracted as a list of files; `stat()` and
`read_text()/read_bytes()` outcomes are per-file `Except` fields
(`Except.error` models the raised `OSError`/decode error), `embed_chunks`
is an `Except`-valued oracle (its failures model embedding-backend
exceptions), and `_bytes_hash` is an abstract hash function on the content.
Wall-clock duration is not modelled. -/

/-- One enumerated vault file: relative path, `stat().st_mtime` outcome and
`read` outcome. -/
structure VFile where
  rel : String
  stat : Except Unit ℚ
  readE : Except Unit String

/-- Reindex run counts (`reindex.ReindexResult` minus the wall-clock
duration). -/
structure ReindexResult where
  notes_indexed : ℕ
  chunks_created : ℕ
  notes_skipped : ℕ := 0
  notes_deleted : ℕ := 0
deriving DecidableEq

/-- Per-file persisted change-detection entry (`{mtime, hash}`). -/
structure FState where
  mtime : ℚ
  hash : String
deriving DecidableEq

/-- Parsed contents of `.zk/index_state.json`: the modern format
`{"_model": m, "files": {...}}`, the legacy flat `path → state` mapping, or
an absent file (`{}`). -/
inductive StateFile
  | absent
  | legacy (entries : List (String × FState))
  | modern (model : String) (files : List (String × FState))
deriving DecidableEq

/-- Field read `raw_state.get("_model")`. -/
def storedModel : StateFile → Option String
  | StateFile.absent => none
  | StateFile.legacy _ => none
  | StateFile.modern m _ => some m

/-- Field read
`raw_state.get("files", raw_state if "_model" not in raw_state else {})`. -/
def prevFiles : StateFile → List (String × FState)
  | StateFile.absent => []
  | StateFile.legacy entries => entries
  | StateFile.modern _ files => files

/-- Association-list lookup (`prev_state.get(rel)`). -/
def stateGet (m : List (String × FState)) (k : String) : Option FState :=
  (m.find? (fun p => p.1 = k)).map Prod.snd

/-- Accumulator of the incremental loop: new state entries, notes indexed,
chunks created, notes skipped, and the store. -/
structure IncAcc where
  new_state : List (String × FState)
  notes_indexed : ℕ
  chunks_created : ℕ
  notes_skipped : ℕ
  store : List Row

/-- Per-file body of the `reindex_incremental` loop. -/
def reindexIncStep (embedF : List Chunk → Except Unit (List (List ℚ)))
    (hashF : String → String) (active_model : String)
    (prev_state : List (String × FState)) (acc : IncAcc) (f : VFile) :
    Except Unit IncAcc :=
  match f.stat with
  | Except.error _ => Except.ok acc
  | Except.ok mtime =>
    let prev := stateGet prev_state f.rel
    match prev with
    | some pv =>
      if pv.mtime = mtime then
        Except.ok { acc with new_state := acc.new_state ++ [(f.rel, pv)],
                             notes_skipped := acc.notes_skipped + 1 }
      else
        match f.readE with
        | Except.error _ => Except.error ()
        | Except.ok content =>
          let file_hash := hashF content
          if pv.hash = file_hash then
            Except.ok { acc with
              new_state := acc.new_state ++ [(f.rel, ⟨mtime, file_hash⟩)],
              notes_skipped := acc.notes_skipped + 1 }
          else
            let chunks := chunk_note f.rel content
            if chunks = [] then
              Except.ok { acc with new_state := acc.new_state ++ [(f.rel, ⟨mtime, file_hash⟩)] }
            else
              match embedF chunks with
              | Except.error _ => Except.error ()
              | Except.ok embeddings =>
                Except.ok { acc with
                  new_state := acc.new_state ++ [(f.rel, ⟨mtime, file_hash⟩)],
                  notes_indexed := acc.notes_indexed + 1,
                  chunks_created := acc.chunks_created + chunks.length,
                  store := upsert_note active_model f.rel chunks embeddings acc.store }
    | none =>
      match f.readE with
      | Except.error _ => Except.error ()
      | Except.ok content =>
        let file_hash := hashF content
        let chunks := chunk_note f.rel content
        if chunks = [] then
          Except.ok { acc with new_state := acc.new_state ++ [(f.rel, ⟨mtime, file_hash⟩)] }
        else
          match embedF chunks with
          | Except.error _ => Except.error ()
          | Except.ok embeddings =>
            Except.ok { acc with
              new_state := acc.new_state ++ [(f.rel, ⟨mtime, file_hash⟩)],
              notes_indexed := acc.notes_indexed + 1,
              chunks_created := acc.chunks_created + chunks.length,
              store := upsert_note active_model f.rel chunks embeddings acc.store }

/-- Fold of `reindexIncStep` over the enumerated files, propagating the
first uncaught exception. -/
def reindexIncFold (embedF : List Chunk → Except Unit (List (List ℚ)))
    (hashF : String → String) (active_model : String)
    (prev_state : List (String × FState)) (acc : IncAcc) :
    List VFile → Except Unit IncAcc
  | [] => Except.ok acc
  | f :: rest =>
    match reindexIncStep embedF hashF active_model prev_state acc f with
    | Except.error e => Except.error e
    | Except.ok acc1 => reindexIncFold embedF hashF active_model prev_state acc1 rest

/-- Reindex `reindex_incremental`: model-change detection, legacy-format
acceptance, mtime/hash fast paths, deletion of vanished notes, and the
rewritten state file.  Returns the run counts, the final store and the new
`StateFile`. -/
def reindex_incremental (embedF : List Chunk → Except Unit (List (List ℚ)))
    (hashF : String → String) (active_model : String) (raw_state : StateFile)
    (files : List VFile) (store : List Row) :
    Except Unit (ReindexResult × List Row × StateFile) :=
  let stored_model := storedModel raw_state
  let prev_files := prevFiles raw_state
  let model_changed := match stored_model with
    | none => false
    | some m => ¬ m = active_model
  let prev_state := if model_changed then [] else prev_files
  match reindexIncFold embedF hashF active_model prev_state
      ⟨[], 0, 0, 0, store⟩ files with
  | Except.error e => Except.error e
  | Except.ok acc =>
    let deleted := (prev_files.filter (fun p =>
      ¬ (acc.new_state.any (fun q => q.1 = p.1)))).map Prod.fst
    let store1 := deleted.foldl (fun s p => delete_note_from_index p s) acc.store
    Except.ok ({ notes_indexed := acc.notes_indexed, chunks_created := acc.chunks_created,
                 notes_skipped := acc.notes_skipped, notes_deleted := deleted.length },
               store1, StateFile.modern active_model acc.new_state)

/-- Fold of the `reindex_all` loop: read, chunk, embed, upsert each file,
with no exception handling at all. -/
def reindexAllFold (embedF : List Chunk → Except Unit (List (List ℚ)))
    (active_model : String) (acc : ℕ × ℕ × List Row) :
    List VFile → Except Unit (ℕ × ℕ × List Row)
  | [] => Except.ok acc
  | f :: rest =>
    match f.readE with
    | Except.error e => Except.error e
    | Except.ok content =>
      let chunks := chunk_note f.rel content
      if chunks = [] then reindexAllFold embedF active_model acc rest
      else
        match embedF chunks with
        | Except.error e => Except.error e
        | Except.ok embeddings =>
          reindexAllFold embedF active_model
            (acc.1 + 1, acc.2.1 + chunks.length,
             upsert_note active_model f.rel chunks embeddings acc.2.2) rest

/-- Reindex `reindex_all`: full rebuild over the enumerated files.  Returns
the run counts and the final store. -/
def reindex_all (embedF : List Chunk → Except Unit (List (List ℚ)))
    (active_model : String) (files : List VFile) (store : List Row) :
    Except Unit (ReindexResult × List Row) :=
  match reindexAllFold embedF active_model (0, 0, store) files with
  | Except.error e => Except.error e
  | Except.ok acc =>
    Except.ok ({ notes_indexed := acc.1, chunks_created := acc.2.1 }, acc.2.2)

/-! ## Filesystem watcher (`watcher.py`)

The handler's mutable maps are a state record; `time.monotonic()` is an
explicit `now : ℚ` parameter. -/

/-- Directory names ignored by the watcher (`_IGNORED_DIRS`). -/
def ignoredDirs : List String := [".zk", ".git", ".venv"]

/-- Python `Path(p).parts` for a relative/absolute slash path (drive and
root handling not needed here). -/
def pathParts (path : String) : List String :=
  (splitLines (String.mk (path.data.map (fun c => if c = '/' then '\n' else c)))).filter
    (fun s => ¬ s = "")

/-- Watcher `_is_ignored`: some path component is a tooling directory. -/
def is_ignored (path : String) : Bool :=
  ignoredDirs.any (fun d => (pathParts path).contains d)

/-- Watcher `_relative`: `str(Path(src).relative_to(self.vault))`, modelled
for the paths the watcher actually receives (those under the vault root). -/
def relative_to_vault (vault src : String) : String :=
  if pyStartsWith src (vault ++ "/") then String.mk (src.data.drop (vault.data.length + 1))
  else src

/-- Watcher handler state: the recency marks (`_recently_indexed`) and the
store it writes to.  Debounce timers are not modelled (the claims below do
not quantify over them). -/
structure WatcherState where
  recently_indexed : List (String × ℚ)
  store : List Row
deriving DecidableEq

/-- Recency-map lookup. -/
def recencyGet (m : List (String × ℚ)) (k : String) : Option ℚ :=
  (m.find? (fun p => p.1 = k)).map Prod.snd

/-- Watcher `mark_indexed`. -/
def mark_indexed (now : ℚ) (rel : String) (st : WatcherState) : WatcherState :=
  { st with recently_indexed :=
      if st.recently_indexed.any (fun p => p.1 = rel) then
        st.recently_indexed.map (fun p => if p.1 = rel then (rel, now) else p)
      else st.recently_indexed ++ [(rel, now)] }

/-- Watcher `_was_recently_indexed`: inside the lock, look the path up,
report a hit within the 30-second window, and expire (delete) stale
entries.  Returns the verdict and the possibly-updated state. -/
def was_recently_indexed (now : ℚ) (rel : String) (st : WatcherState) :
    Bool × WatcherState :=
  match recencyGet st.recently_indexed rel with
  | none => (false, st)
  | some ts =>
    if now - ts < 30 then (true, st)
    else
      (false, { st with recently_indexed :=
        st.recently_indexed.filter (fun p => ¬ p.1 = rel) })

/-- Filesystem event as delivered by watchdog. -/
structure FsEvent where
  is_directory : Bool
  src_path : String

/-- Watcher `on_deleted`: ignore directories, tooling paths and non-`.md`
files; otherwise delete the note from the index unless the event system
indexed that path within the recency window. -/
def on_deleted (vault : String) (now : ℚ) (ev : FsEvent) (st : WatcherState) :
    WatcherState :=
  if ev.is_directory then st
  else if is_ignored ev.src_path then st
  else if ¬ pyLower (path_suffix ev.src_path) = ".md" then st
  else
    let rel := relative_to_vault vault ev.src_path
    let wr := was_recently_indexed now rel st
    if wr.1 then wr.2
    else { wr.2 with store := delete_note_from_index rel wr.2.store }

/-! ## Derived notions used by the statements below -/

/-- Number of code-fence delimiter lines (lines starting with three
backquotes) in a text, the sense in which both the spec and the chunkers
treat a line as toggling a fenced block. -/
def fence_marker_count (text : String) : ℕ :=
  (splitLines text).countP (fun l => pyStartsWith l "```")

/-- Line-level fence count (for line groups before joining). -/
def fence_line_count (lines : List String) : ℕ :=
  lines.countP (fun l => pyStartsWith l "```")

/-- Multiples of `1/1000` — the possible outputs of `round3`. -/
def Is3Mult (x : ℚ) : Prop := ∃ k : ℤ, x = (k : ℚ) / 1000

/-- Exact final score of a row for a query, under a distance oracle. -/
def rowScore (distF : Row → ℚ) (query : String) (r : Row) : ℚ :=
  final_score query r.text (distF r)

/-- Candidate rows fetched by `hybrid_search` before scoring: the
`limit * 4` nearest rows of the store. -/
def searchCandidates (distF : Row → ℚ) (store : List Row) (limit : ℕ) : List Row :=
  (sortByDist distF store).take (limit * 4)

/-- Invariant of the dedup fold in `hybrid_search`, over the processed
prefix of the candidate list. -/
def DedupInv (distF : Row → ℚ) (query : String) (processed : List Row)
    (seen : List SRes) : Prop :=
  (seen.map SRes.path).Nodup
  ∧ (∀ o ∈ seen,
      (∃ r ∈ processed, r.path = o.path ∧ r.title = o.title ∧ r.directory = o.directory
          ∧ r.text = o.text ∧ o.score = round3 (rowScore distF query r))
      ∧ ∀ r ∈ processed, r.path = o.path → round3 (rowScore distF query r) ≤ o.score)
  ∧ ∀ r ∈ processed, ∃ o ∈ seen, o.path = r.path

/-- Concrete rows for the hybrid-search counterexample: two chunks of the
same note. -/
def cexRow1 : Row :=
  { path := "a.md", title := "T", directory := "", tags := "", modified_date := "",
    chunk_index := 0, text := "t1", vector := [], embedding_model := "m" }

/-- Second chunk of the counterexample note. -/
def cexRow2 : Row :=
  { path := "a.md", title := "T", directory := "", tags := "", modified_date := "",
    chunk_index := 0, text := "t2", vector := [], embedding_model := "m" }

/-- Distance oracle of the counterexample: `cexRow1` is nearer. -/
def cexDist (r : Row) : ℚ := if r.text = "t1" then 4996 / 10000 else 4998 / 10000

/-- Dedup-map entry produced for `cexRow1`. -/
def cexO1 : SRes :=
  { path := "a.md", title := "T", directory := "", score := 1 / 2, text := "t1" }

/-- Dedup-map entry produced for `cexRow2`. -/
def cexO2 : SRes :=
  { path := "a.md", title := "T", directory := "", score := 1 / 2, text := "t2" }

/-! # Theorems -/

/-! ## C1: the registered index subscriber -/

/-- C1 (code bug): the spec says every `created`/`modified` `NoteEvent`
published on the event bus makes the registered subscriber re-chunk, embed
and upsert the note and mark the path recently indexed.  The handler in
`server._register_index_listener` compares the `EventType` enum member
against the string literals `"created"`, `"modified"`, `"deleted"`,
`"moved"`, which is always false for Python `Enum` values, so no branch
ever runs: for every event and every state the handler leaves the store
and the recency marks completely unchanged. -/
theorem C1_index_subscriber_is_inert (readF : String → Except Unit String)
    (embedF : List Chunk → Except Unit (List (List ℚ))) (active_model : String)
    (ev : NoteEvent) (st : IndexState) :
    handle readF embedF active_model ev st = st := by
  simp [handle, pyIn, pyEq]

/-! ## C3: listener failure isolation in `emit` -/

/-- C3 counterexample: with two subscribed listeners where the first raises,
`emit` performs only the first invocation and propagates the exception — the
listener subscribed after the failing one is never invoked, contrary to the
claim that "all listeners subscribed after it are still invoked". -/
theorem C3_counterexample :
    emit [⟨0, fun _ => true⟩, ⟨1, fun _ => false⟩]
        ⟨EventType.MODIFIED, "notes/foo.md", none⟩
      = ([(0, ⟨EventType.MODIFIED, "notes/foo.md", none⟩)], Except.error ()) := by
  rfl

/-- C3 as amended: `events.emit` has no per-listener exception handling, so
when a listener raises, all listeners subscribed before it have been invoked
with the event, the exception propagates out of `emit`, and the listeners
subscribed after it are not invoked. -/
theorem C3_emit_stops_at_first_failing_listener (pre : List Listener) (l : Listener)
    (post : List Listener) (ev : NoteEvent)
    (hpre : ∀ x ∈ pre, x.fails ev = false) (hl : l.fails ev = true) :
    emit (pre ++ l :: post) ev
      = (pre.map (fun x => (x.id, ev)) ++ [(l.id, ev)], Except.error ()) := by
  induction pre with
  | nil => simp [emit, hl]
  | cons x xs ih =>
    have hx : x.fails ev = false := hpre x (List.mem_cons_self x xs)
    have ht := ih (fun y hy => hpre y (List.mem_cons_of_mem x hy))
    simp [emit, hx, ht]

/-- C3 witness: a concrete three-listener bus where the middle listener
raises — the first listener is invoked, the third is not, and the error
escapes. -/
theorem C3_emit_stops_witness :
    emit [⟨0, fun _ => false⟩, ⟨1, fun _ => true⟩, ⟨2, fun _ => false⟩]
        ⟨EventType.CREATED, "a.md", none⟩
      = ([(0, ⟨EventType.CREATED, "a.md", none⟩), (1, ⟨EventType.CREATED, "a.md", none⟩)],
         Except.error ()) :=
  C3_emit_stops_at_first_failing_listener [⟨0, fun _ => false⟩] ⟨1, fun _ => true⟩
    [⟨2, fun _ => false⟩] ⟨EventType.CREATED, "a.md", none⟩ (by decide) (by decide)

/-! ## C4: legacy change-detection state -/

/-- C4 counterexample: with a legacy (flat, model-less) state file recording
`a.md` at mtime 5, and `a.md` unchanged on disk, an incremental reindex
skips the note via the mtime fast path (`notes_skipped = 1`,
`notes_indexed = 0`) instead of re-embedding every note as the claim
requires. -/
theorem C4_counterexample :
    reindex_incremental (fun _ => Except.ok []) (fun _ => "h") "model-b"
        (StateFile.legacy [("a.md", ⟨5, "h"⟩)])
        [⟨"a.md", Except.ok 5, Except.ok "body"⟩] []
      = Except.ok ({ notes_indexed := 0, chunks_created := 0, notes_skipped := 1,
                     notes_deleted := 0 }, [],
                   StateFile.modern "model-b" [("a.md", ⟨5, "h"⟩)]) := by
  rfl

/-- C4 as amended: a legacy-format state file is accepted with its entries
used as-is — an incremental reindex treats it exactly as a modern state file
whose recorded model equals the active model, so the mtime/hash fast paths
still apply and nothing forces a full reindex. -/
theorem C4_legacy_state_equals_current_model_state
    (embedF : List Chunk → Except Unit (List (List ℚ))) (hashF : String → String)
    (active_model : String) (entries : List (String × FState)) (files : List VFile)
    (store : List Row) :
    reindex_incremental embedF hashF active_model (StateFile.legacy entries) files store
      = reindex_incremental embedF hashF active_model
          (StateFile.modern active_model entries) files store := by
  simp [reindex_incremental, storedModel, prevFiles]

/-! ## C10: deletion suppressed by the recency window -/

/-- C10: when the watcher receives a delete event for a vault note whose
relative path was marked recently indexed within the 30-second window, the
handler (gated by the same `_was_recently_indexed` check used by
`_do_upsert`) does not touch the store: the note's rows remain and the
state — recency map included — is unchanged. -/
theorem C10_recent_delete_is_suppressed (vault : String) (now ts : ℚ) (ev : FsEvent)
    (st : WatcherState) (hdir : ev.is_directory = false)
    (hig : is_ignored ev.src_path = false)
    (hmd : pyLower (path_suffix ev.src_path) = ".md")
    (hts : recencyGet st.recently_indexed (relative_to_vault vault ev.src_path) = some ts)
    (hwin : now - ts < 30) :
    on_deleted vault now ev st = st := by
  simp [on_deleted, hdir, hig, hmd, was_recently_indexed, hts, hwin]

/-- C10 witness: a note deleted 10 seconds after the event system indexed
it stays in the store. -/
theorem C10_recent_delete_witness :
    on_deleted "/v" 10 ⟨false, "/v/notes/a.md"⟩
        ⟨[("notes/a.md", 0)],
         [⟨"notes/a.md", "T", "notes", "", "", 0, "body", [], "m"⟩]⟩
      = ⟨[("notes/a.md", 0)],
         [⟨"notes/a.md", "T", "notes", "", "", 0, "body", [], "m"⟩]⟩ :=
  C10_recent_delete_is_suppressed "/v" 10 0 ⟨false, "/v/notes/a.md"⟩
    ⟨[("notes/a.md", 0)], [⟨"notes/a.md", "T", "notes", "", "", 0, "body", [], "m"⟩]⟩
    rfl (by decide) (by decide) (by decide) (by norm_num)

/-! ## C2: failure isolation in full and incremental reindex runs -/

/-- C2 counterexample: a full reindex over three notes where reading the
second raises — `reindex_all` has no per-note exception handling, so the
run aborts with the exception instead of returning its counts, and the
third note is never processed. -/
theorem C2_counterexample :
    reindex_all (fun cs => Except.ok (cs.map (fun _ => []))) "m"
        [⟨"a.md", Except.ok 1, Except.ok "alpha"⟩,
         ⟨"b.md", Except.ok 1, Except.error ()⟩,
         ⟨"c.md", Except.ok 1, Except.ok "gamma"⟩] []
      = Except.error () := by
  rfl

/-- Helper for C2: a file whose `stat()` raises contributes nothing to the
incremental fold. -/
theorem reindexIncFold_skips_stat_failure
    (embedF : List Chunk → Except Unit (List (List ℚ))) (hashF : String → String)
    (active_model : String) (prev_state : List (String × FState)) (f : VFile)
    (post : List VFile) (hf : f.stat = Except.error ()) :
    ∀ (pre : List VFile) (acc : IncAcc),
      reindexIncFold embedF hashF active_model prev_state acc (pre ++ f :: post)
        = reindexIncFold embedF hashF active_model prev_state acc (pre ++ post) := by
  intro pre
  induction pre with
  | nil =>
    intro acc
    simp [reindexIncFold, reindexIncStep, hf]
  | cons x xs ih =>
    intro acc
    simp only [List.cons_append, reindexIncFold]
    cases reindexIncStep embedF hashF active_model prev_state acc x with
    | error e => rfl
    | ok acc1 => exact ih acc1

/-- C2 as amended: during an incremental reindex run, a failure to `stat` a
single note is isolated — the note is skipped and the run over the rest of
the vault is exactly the run without that note, returning its counts; but a
failure while reading, chunking, or embedding a note is not isolated: it
propagates and aborts the run (in full runs too, as the counterexample
shows), leaving the remaining notes unprocessed. -/
theorem C2_stat_failure_does_not_abort_incremental
    (embedF : List Chunk → Except Unit (List (List ℚ))) (hashF : String → String)
    (active_model : String) (raw_state : StateFile) (pre post : List VFile) (f : VFile)
    (store : List Row) (hf : f.stat = Except.error ()) :
    reindex_incremental embedF hashF active_model raw_state (pre ++ f :: post) store
      = reindex_incremental embedF hashF active_model raw_state (pre ++ post) store := by
  simp only [reindex_incremental,
    reindexIncFold_skips_stat_failure embedF hashF active_model _ f post hf]

/-- C2 witness: a concrete incremental run where the middle note's `stat`
raises equals the run without it. -/
theorem C2_stat_failure_witness :
    reindex_incremental (fun cs => Except.ok (cs.map (fun _ => []))) (fun _ => "h") "m"
        StateFile.absent
        [⟨"a.md", Except.ok 1, Except.ok "alpha"⟩,
         ⟨"b.md", Except.error (), Except.ok "beta"⟩,
         ⟨"c.md", Except.ok 1, Except.ok "gamma"⟩] []
      = reindex_incremental (fun cs => Except.ok (cs.map (fun _ => []))) (fun _ => "h") "m"
          StateFile.absent
          [⟨"a.md", Except.ok 1, Except.ok "alpha"⟩,
           ⟨"c.md", Except.ok 1, Except.ok "gamma"⟩] [] :=
  C2_stat_failure_does_not_abort_incremental (fun cs => Except.ok (cs.map (fun _ => [])))
    (fun _ => "h") "m" StateFile.absent [⟨"a.md", Except.ok 1, Except.ok "alpha"⟩]
    [⟨"c.md", Except.ok 1, Except.ok "gamma"⟩] ⟨"b.md", Except.error (), Except.ok "beta"⟩
    [] rfl

/-! ## C9: `update_metadata` as a pure metadata rewrite -/

/-- Helper for C9: filtering a replicated list. -/
theorem filter_replicate_of_pos {α : Type} (p : α → Bool) (a : α) (h : p a = true) :
    ∀ n : ℕ, (List.replicate n a).filter p = List.replicate n a := by
  intro n
  induction n with
  | zero => rfl
  | succ k ih => simp [List.replicate_succ, List.filter_cons, h, ih]

/-- C9 counterexample: `update_metadata` fetches matching rows with
`.limit(10000)`; on a store holding 10001 rows for the old path it deletes
all of them but re-adds only the fetched 10000, so a row's data is lost
rather than field-rewritten — the row count changes, contradicting the
claim for this store state. -/
theorem C9_counterexample :
    ¬ (update_metadata "a.md" "b.md" (some "T2") (some ["x"])
          (List.replicate 10001 ⟨"a.md", "T", "", "", "", 0, "t", [], "m"⟩)).length
        = (List.replicate 10001
            (⟨"a.md", "T", "", "", "", 0, "t", [], "m"⟩ : Row)).length := by
  have e1 : (List.replicate 10001 (⟨"a.md", "T", "", "", "", 0, "t", [], "m"⟩ : Row)).filter
      (fun r => decide (r.path = "a.md"))
      = List.replicate 10001 (⟨"a.md", "T", "", "", "", 0, "t", [], "m"⟩ : Row) :=
    filter_replicate_of_pos _ _ (by decide) 10001
  have e2 : (List.replicate 10001 (⟨"a.md", "T", "", "", "", 0, "t", [], "m"⟩ : Row)).filter
      (fun r => decide (¬ r.path = "a.md")) = [] := by
    apply List.filter_eq_nil_iff.mpr
    intro r hr
    rw [List.eq_of_mem_replicate hr]
    decide
  simp only [update_metadata, e1, e2, List.take_replicate, List.length_replicate,
    List.length_append, List.length_map, List.nil_append]
  have hmin : min 10000 10001 = 10000 := by decide
  rw [hmin]
  have hne : ¬ List.replicate 10000
      (⟨"a.md", "T", "", "", "", 0, "t", [], "m"⟩ : Row) = [] := by
    intro hcontra
    have hlen := congrArg List.length hcontra
    simp only [List.length_replicate, List.length_nil] at hlen
    exact absurd hlen (by decide)
  rw [if_neg hne]
  simp only [List.length_map, List.length_replicate]
  decide

/-- C9 as amended: provided at most 10000 rows exist for `old_path` (the
`.limit(10000)` fetch cap), `update_metadata` replaces exactly the rows for
`old_path` by rewritten copies — path and directory set from the new path,
title and tags overwritten only when supplied — while every rewritten row
keeps its embedding vector, chunk text, chunk index and modification date;
rows for other paths are untouched, and with no matching rows the store is
returned unchanged. -/
theorem C9_update_metadata_rewrites_metadata_only (old_path new_path : String)
    (new_title : Option String) (new_tags : Option (List String)) (store : List Row)
    (hcount : (store.filter (fun r => r.path = old_path)).length ≤ 10000) :
    update_metadata old_path new_path new_title new_tags store
      = store.filter (fun r => ¬ r.path = old_path)
          ++ (store.filter (fun r => r.path = old_path)).map
              (metadataRewrite new_path new_title new_tags)
    ∧ ∀ r : Row,
        (metadataRewrite new_path new_title new_tags r).vector = r.vector
        ∧ (metadataRewrite new_path new_title new_tags r).text = r.text
        ∧ (metadataRewrite new_path new_title new_tags r).chunk_index = r.chunk_index
        ∧ (metadataRewrite new_path new_title new_tags r).modified_date = r.modified_date
        ∧ (metadataRewrite new_path new_title new_tags r).path = new_path
        ∧ (metadataRewrite new_path new_title new_tags r).directory
            = directory_of new_path := by
  constructor
  · unfold update_metadata
    rw [List.take_of_length_le hcount]
    by_cases hnil : store.filter (fun r => r.path = old_path) = []
    · rw [if_pos hnil, hnil]
      simp only [List.map_nil, List.append_nil]
      symm
      apply List.filter_eq_self.mpr
      intro r hr
      have hner := List.filter_eq_nil_iff.mp hnil r hr
      simp only [decide_eq_true_eq] at hner
      simp [hner]
    · rw [if_neg hnil]
  · intro r
    simp [metadataRewrite]

/-- C9 witness: a two-row store (one row for the old path) rewritten at
concrete arguments. -/
theorem C9_update_metadata_witness :
    update_metadata "a.md" "n/b.md" (some "T2") (some ["x", "y"])
        [⟨"a.md", "T", "", "k", "d", 0, "t", [], "m"⟩,
         ⟨"z.md", "Z", "", "", "", 0, "zt", [], "m"⟩]
      = ([⟨"a.md", "T", "", "k", "d", 0, "t", [], "m"⟩,
          ⟨"z.md", "Z", "", "", "", 0, "zt", [], "m"⟩] : List Row).filter
            (fun r => ¬ r.path = "a.md")
          ++ (([⟨"a.md", "T", "", "k", "d", 0, "t", [], "m"⟩,
                ⟨"z.md", "Z", "", "", "", 0, "zt", [], "m"⟩] : List Row).filter
                (fun r => r.path = "a.md")).map
              (metadataRewrite "n/b.md" (some "T2") (some ["x", "y"]))
    ∧ ∀ r : Row,
        (metadataRewrite "n/b.md" (some "T2") (some ["x", "y"]) r).vector = r.vector
        ∧ (metadataRewrite "n/b.md" (some "T2") (some ["x", "y"]) r).text = r.text
        ∧ (metadataRewrite "n/b.md" (some "T2") (some ["x", "y"]) r).chunk_index
            = r.chunk_index
        ∧ (metadataRewrite "n/b.md" (some "T2") (some ["x", "y"]) r).modified_date
            = r.modified_date
        ∧ (metadataRewrite "n/b.md" (some "T2") (some ["x", "y"]) r).path = "n/b.md"
        ∧ (metadataRewrite "n/b.md" (some "T2") (some ["x", "y"]) r).directory
            = directory_of "n/b.md" :=
  C9_update_metadata_rewrites_metadata_only "a.md" "n/b.md" (some "T2") (some ["x", "y"])
    [⟨"a.md", "T", "", "k", "d", 0, "t", [], "m"⟩,
     ⟨"z.md", "Z", "", "", "", 0, "zt", [], "m"⟩] (by decide)

/-! ## Shared string lemmas -/

/-- A string strips to empty exactly when all its characters are
whitespace. -/
theorem pyStrip_eq_empty_iff (s : String) :
    pyStrip s = "" ↔ ∀ c ∈ s.data, isWS c = true := by
  have hdata : pyStrip s = "" ↔ (pyStrip s).data = [] := by
    constructor
    · intro h; rw [h]
    · intro h
      have hmk : pyStrip s = String.mk (pyStrip s).data := rfl
      rw [hmk, h]
  rw [hdata]
  show (((s.data.dropWhile isWS).reverse.dropWhile isWS).reverse = []) ↔ _
  rw [List.reverse_eq_nil_iff, List.dropWhile_eq_nil_iff]
  constructor
  · intro h c hc
    rcases List.mem_append.mp
        ((List.takeWhile_append_dropWhile (p := isWS) (l := s.data)) ▸ hc) with h1 | h1
    · exact List.mem_takeWhile_imp h1
    · exact h c (List.mem_reverse.mpr h1)
  · intro h c hc
    exact h c ((List.dropWhile_sublist _).subset (List.mem_reverse.mp hc))

/-- Characters of `pyJoin "" ls` all occur in `pyJoin sep ls`. -/
theorem pyJoin_empty_sublist (sep : String) (ls : List String) :
    (pyJoin "" ls).data.Sublist (pyJoin sep ls).data := by
  induction ls with
  | nil => simp [pyJoin]
  | cons x xs ih =>
    cases xs with
    | nil => simp [pyJoin]
    | cons y ys =>
      show (x ++ "" ++ pyJoin "" (y :: ys)).data.Sublist
          (x ++ sep ++ pyJoin sep (y :: ys)).data
      simp only [String.data_append]
      refine List.Sublist.append (List.Sublist.append (List.Sublist.refl _) ?_) ih
      exact List.nil_sublist _

/-- If a group of lines does not strip to nothing when joined flat, it does
not strip to nothing when joined with newlines either. -/
theorem strip_join_newline_ne (ls : List String)
    (h : ¬ pyStrip (pyJoin "" ls) = "") : ¬ pyStrip (pyJoin "\n" ls) = "" := by
  intro hcontra
  apply h
  rw [pyStrip_eq_empty_iff] at hcontra ⊢
  intro c hc
  exact hcontra c ((pyJoin_empty_sublist "\n" ls).subset hc)

/-- Every section emitted by the section-splitting loop passed the
flushability guard. -/
theorem mem_split_sections_go_flushable (marker : String) :
    ∀ (lines : List String) (header : String) (current : List String)
      (p : String × List String), p ∈ split_sections_go marker header current lines →
      sectionFlushable p.2 = true := by
  intro lines
  induction lines with
  | nil =>
    intro header current p hp
    simp only [split_sections_go] at hp
    by_cases hf : sectionFlushable current = true
    · rw [if_pos hf] at hp
      rcases List.mem_singleton.mp hp with rfl
      exact hf
    · rw [if_neg hf] at hp
      exact absurd hp (List.not_mem_nil p)
  | cons l rest ih =>
    intro header current p hp
    simp only [split_sections_go] at hp
    by_cases hm : pyStartsWith l marker = true
    · rw [if_pos hm] at hp
      rcases List.mem_append.mp hp with h1 | h1
      · by_cases hf : sectionFlushable current = true
        · rw [if_pos hf] at h1
          rcases List.mem_singleton.mp h1 with rfl
          exact hf
        · rw [if_neg hf] at h1
          exact absurd h1 (List.not_mem_nil p)
      · exact ih _ _ p h1
    · rw [if_neg hm] at hp
      exact ih _ _ p hp

/-- Every section emitted by `split_sections` has a body that does not
strip to nothing when joined with newlines. -/
theorem mem_split_sections_text_ne (marker : String) (lines : List String)
    (p : String × List String) (hp : p ∈ split_sections marker lines) :
    ¬ pyStrip (pyJoin "\n" p.2) = "" := by
  have hf := mem_split_sections_go_flushable marker lines "" [] p hp
  simp only [sectionFlushable, Bool.and_eq_true, decide_eq_true_eq] at hf
  exact strip_join_newline_ne p.2 hf.2

/-! ## C8: chunking never returns an empty list -/

/-- Helper for C8: the sliding-window fold never shrinks its chunk list. -/
theorem sliding_fold_length_le (path title : String) (tags : List String) (date : String)
    (config : ChunkConfig) (words : List String) (window : ℕ) :
    ∀ (starts : List ℕ) (st : List Chunk × ℕ),
      st.1.length ≤
        ((starts.foldl (slidingStep path title tags date config words window) st).1).length := by
  intro starts
  induction starts with
  | nil => intro st; simp
  | cons a rest ih =>
    intro st
    refine le_trans ?_ (ih (slidingStep path title tags date config words window st a))
    unfold slidingStep
    by_cases hc : approx_tokens (pyJoin " " ((words.drop a).take window))
        ≥ config.min_chunk_tokens ∨ st.1 = []
    · rw [if_pos hc]
      simp
    · rw [if_neg hc]

/-- Helper for C8: the sliding-window loop emits at least one chunk for a
non-empty word list. -/
theorem sliding_fold_ne_nil (path title : String) (tags : List String) (date : String)
    (config : ChunkConfig) (words : List String) (window step : ℕ)
    (hw : 1 ≤ words.length) (hstep : 1 ≤ step) :
    ¬ ((((List.range ((words.length + step - 1) / step)).map (· * step)).foldl
        (slidingStep path title tags date config words window) ([], 0)).1) = [] := by
  have hn : 1 ≤ (words.length + step - 1) / step := by
    rw [Nat.le_div_iff_mul_le (by omega)]
    omega
  obtain ⟨m, hm⟩ : ∃ m, (words.length + step - 1) / step = m + 1 :=
    ⟨_, (Nat.succ_pred_eq_of_pos (by omega)).symm⟩
  rw [hm, List.range_succ_eq_map]
  intro hcontra
  have hfirst : (slidingStep path title tags date config words window ([], 0) (0 * step)).1.length
      = 1 := by
    unfold slidingStep
    rw [if_pos (Or.inr rfl)]
    simp
  have hmono := sliding_fold_length_le path title tags date config words window
    ((List.map Nat.succ (List.range m)).map (· * step))
    (slidingStep path title tags date config words window ([], 0) (0 * step))
  rw [hfirst] at hmono
  simp only [List.map_cons, List.foldl_cons] at hcontra
  rw [hcontra] at hmono
  simp at hmono

/-- C8: for every path and content — including content whose body is empty
after the metadata block — both the index-time chunker (`chunk_note`) and
the sliding-window strategy return a non-empty chunk list. -/
theorem C8_chunking_never_returns_empty (path content : String) (config : ChunkConfig) :
    ¬ chunk_note path content = [] ∧
      ¬ slidingWindowChunkerChunk path content config = [] := by
  constructor
  · unfold chunk_note
    by_cases hs : split_sections "## " (splitLines (parse_frontmatter content).2) = []
    · simp [hs]
    · rw [if_neg hs]
      obtain ⟨s, rest, hrest⟩ := List.exists_cons_of_ne_nil hs
      rw [hrest]
      have hmem : s ∈ split_sections "## " (splitLines (parse_frontmatter content).2) := by
        rw [hrest]; exact List.mem_cons_self s rest
      have hne := mem_split_sections_text_ne _ _ s hmem
      simp only [List.enum, List.enumFrom, List.filterMap]
      rw [if_neg hne]
      simp
  · simp only [slidingWindowChunkerChunk]
    by_cases hw : pySplitWS (parse_note content).body = []
    · simp [hw]
    · rw [if_neg hw]
      exact sliding_fold_ne_nil path (strategyTitle path (parse_note content))
        (parse_note content).tags (parse_note content).date config
        (pySplitWS (parse_note content).body) (max 1 (config.max_tokens * 10 / 13))
        (max 1 (max 1 (config.max_tokens * 10 / 13) - config.overlap_tokens * 10 / 13))
        (List.length_pos.mpr hw) (le_max_left 1 _)

/-! ## C5: fenced code blocks and chunk boundaries -/

/-- C5 counterexample: the chunking actually used at index time
(`embedder.chunk_note`) splits on `## ` lines with no code-fence awareness,
so the note body made of a single fenced block whose interior contains a
`## ` line is split across two chunks, each containing an odd number of
fence marker lines — contradicting the claimed invariant. -/
theorem C5_counterexample :
    (chunk_note "a.md" "```\n## x\n```").map
        (fun ch => fence_marker_count ch.text % 2) = [1, 1] := by
  decide

/-- Helper for C5: parity invariant of the paragraph-extraction loop.
Groups are flushed only outside a code fence, so each flushed group holds an
even number of fence lines; the final group inherits the remaining parity. -/
theorem extractGroupsGo_parity :
    ∀ (lines current : List String) (in_code : Bool),
      (in_code = true ↔ List.countP (fun l => pyStartsWith l "```") current % 2 = 1) →
      (List.countP (fun l => pyStartsWith l "```") current
        + List.countP (fun l => pyStartsWith l "```") lines) % 2 = 0 →
      ∀ g ∈ extractGroupsGo current in_code lines,
        List.countP (fun l => pyStartsWith l "```") g % 2 = 0 := by
  intro lines
  induction lines with
  | nil =>
    intro current in_code hinv htot g hg
    simp only [extractGroupsGo] at hg
    by_cases hc : ¬ current = []
    · rw [if_pos hc] at hg
      rcases List.mem_singleton.mp hg with rfl
      simp only [List.countP_nil] at htot
      omega
    · rw [if_neg hc] at hg
      exact absurd hg (List.not_mem_nil g)
  | cons l rest ih =>
    intro current in_code hinv htot g hg
    rw [List.countP_cons] at htot
    simp only [extractGroupsGo] at hg
    by_cases hf : pyStartsWith l "```" = true
    · rw [if_pos hf] at hg
      rw [if_pos hf] at htot
      have happ : List.countP (fun l => pyStartsWith l "```") (current ++ [l])
          = List.countP (fun l => pyStartsWith l "```") current + 1 := by
        rw [List.countP_append, List.countP_cons, List.countP_nil, if_pos hf]
      refine ih (current ++ [l]) (!in_code) ?_ (by rw [happ]; omega) g hg
      rw [happ]
      cases in_code with
      | true =>
        have h1 := hinv.mp rfl
        simp only [Bool.not_true, Bool.false_eq_true, false_iff]
        omega
      | false =>
        have h0 : ¬ List.countP (fun l => pyStartsWith l "```") current % 2 = 1 :=
          fun hh => absurd (hinv.mpr hh) (by simp)
        simp only [Bool.not_false, true_iff]
        omega
    · rw [if_neg hf] at hg
      rw [if_neg hf] at htot
      have happ : List.countP (fun l => pyStartsWith l "```") (current ++ [l])
          = List.countP (fun l => pyStartsWith l "```") current := by
        rw [List.countP_append, List.countP_cons, List.countP_nil, if_neg hf]
        omega
      by_cases hic : in_code = true
      · rw [if_pos hic] at hg
        exact ih (current ++ [l]) in_code (by rw [happ]; exact hinv)
          (by rw [happ]; omega) g hg
      · rw [if_neg hic] at hg
        by_cases hb : pyStrip l = "" ∧ ¬ current = []
        · rw [if_pos hb] at hg
          have hcur_even : List.countP (fun l => pyStartsWith l "```") current % 2 = 0 := by
            have hno : ¬ List.countP (fun l => pyStartsWith l "```") current % 2 = 1 :=
              fun hodd => hic (hinv.mpr hodd)
            omega
          rcases List.mem_cons.mp hg with rfl | hg1
          · exact hcur_even
          · refine ih [] in_code ?_ ?_ g hg1
            · simp only [List.countP_nil]
              constructor
              · intro h2
                exact absurd h2 hic
              · intro h2
                omega
            · simp only [List.countP_nil]
              omega
        · rw [if_neg hb] at hg
          exact ih (current ++ [l]) in_code (by rw [happ]; exact hinv)
            (by rw [happ]; omega) g hg

/-- C5 as amended: the even-fence-marker invariant does not hold for the
chunking used at index time (`chunk_note` splits fenced blocks, see the
counterexample); it does hold for the paragraph extraction used by the
strategy module's sub-splitting: every paragraph produced by
`_extract_paragraphs` is the joined-and-stripped text of one of the line
groups of `extract_groups`, and whenever the input has an even number of
fence-delimiter lines, every such group contains an even number of them —
no fenced block is split across two paragraphs. -/
theorem C5_paragraph_extraction_keeps_fences_atomic (text : String)
    (h : fence_line_count (splitLines text) % 2 = 0) :
    (∀ g ∈ extract_groups (splitLines text), fence_line_count g % 2 = 0)
    ∧ ∀ p ∈ extract_paragraphs text,
        ∃ g ∈ extract_groups (splitLines text), p = pyStrip (pyJoin "\n" g) := by
  constructor
  · intro g hg
    have hp := extractGroupsGo_parity (splitLines text) [] false
      (by simp) (by simpa [fence_line_count] using h) g hg
    simpa [fence_line_count] using hp
  · intro p hp
    simp only [extract_paragraphs, List.mem_filterMap] at hp
    obtain ⟨g, hg, hfg⟩ := hp
    by_cases hb : pyStrip (pyJoin "\n" g) = ""
    · rw [if_pos hb] at hfg
      exact absurd hfg (Option.noConfusion)
    · rw [if_neg hb] at hfg
      exact ⟨g, hg, (Option.some.injEq _ _ ▸ hfg).symm⟩

/-- C5 witness: a note body with one balanced fenced block — evaluated at
concrete input, every extracted group is fence-balanced. -/
theorem C5_paragraphs_witness :
    (∀ g ∈ extract_groups (splitLines "a\n```\npy\n```\n\nb"),
        fence_line_count g % 2 = 0)
    ∧ ∀ p ∈ extract_paragraphs "a\n```\npy\n```\n\nb",
        ∃ g ∈ extract_groups (splitLines "a\n```\npy\n```\n\nb"),
          p = pyStrip (pyJoin "\n" g) :=
  C5_paragraph_extraction_keeps_fences_atomic "a\n```\npy\n```\n\nb" (by decide)

/-! ## Strip no-op lemmas (for C7) -/

/-- A `dropWhile` image starts with a character failing the predicate. -/
theorem head?_dropWhile_not (p : Char → Bool) (l : List Char) :
    ∀ c, (l.dropWhile p).head? = some c → p c = false := by
  induction l with
  | nil => intro c hc; exact absurd hc (by simp)
  | cons a as ih =>
    intro c hc
    by_cases hp : p a = true
    · rw [List.dropWhile_cons, if_pos hp] at hc
      exact ih c hc
    · rw [List.dropWhile_cons, if_neg hp] at hc
      simp only [List.head?_cons, Option.some.injEq] at hc
      subst hc
      exact Bool.eq_false_iff.mpr hp

/-- The head of a non-empty stripped string is not whitespace. -/
theorem pyStrip_head_not_ws (s : String) :
    ∀ c, (pyStrip s).data.head? = some c → isWS c = false := by
  intro c hc
  have hdata : (pyStrip s).data
      = ((s.data.dropWhile isWS).reverse.dropWhile isWS).reverse := rfl
  rw [hdata] at hc
  set u := s.data.dropWhile isWS with hu
  have hsuf : (u.reverse.dropWhile isWS).Sublist u.reverse := List.dropWhile_sublist _
  have hpre : ((u.reverse.dropWhile isWS).reverse).IsPrefix u := by
    have h1 : (u.reverse.dropWhile isWS).IsSuffix u.reverse := List.dropWhile_suffix _
    have h2 := List.reverse_prefix.mpr h1
    simpa using h2
  obtain ⟨t, ht⟩ := hpre
  rcases hres : (u.reverse.dropWhile isWS).reverse with _ | ⟨d, ds⟩
  · rw [hres] at hc
    exact absurd hc (by simp)
  · rw [hres] at hc ht
    simp only [List.head?_cons, Option.some.injEq] at hc
    subst hc
    have hhead : u.head? = some d := by
      rw [← ht]
      rfl
    exact head?_dropWhile_not isWS s.data d (hu ▸ hhead)

/-- The last character of a non-empty stripped string is not whitespace. -/
theorem pyStrip_getLast_not_ws (s : String) :
    ∀ c, (pyStrip s).data.getLast? = some c → isWS c = false := by
  intro c hc
  have hdata : (pyStrip s).data
      = ((s.data.dropWhile isWS).reverse.dropWhile isWS).reverse := rfl
  rw [hdata, List.getLast?_reverse] at hc
  exact head?_dropWhile_not isWS _ c hc

/-- A string whose first and last characters are not whitespace strips to
itself. -/
theorem pyStrip_eq_self_of (s : String)
    (h1 : ∀ c, s.data.head? = some c → isWS c = false)
    (h2 : ∀ c, s.data.getLast? = some c → isWS c = false) : pyStrip s = s := by
  have hmk : s = String.mk s.data := rfl
  rcases hd : s.data with _ | ⟨a, as⟩
  · conv_rhs => rw [hmk, hd]
    show pyStrip s = String.mk []
    have : (pyStrip s).data = ((s.data.dropWhile isWS).reverse.dropWhile isWS).reverse := rfl
    rw [hmk, hd]
    rfl
  · have ha : isWS a = false := h1 a (by rw [hd]; rfl)
    have hdrop : s.data.dropWhile isWS = s.data := by
      rw [hd, List.dropWhile_cons, if_neg (by simp [ha])]
    have hlast : ∀ c, s.data.reverse.head? = some c → isWS c = false := by
      intro c hc
      rw [List.head?_reverse] at hc
      exact h2 c hc
    have hdrop2 : s.data.reverse.dropWhile isWS = s.data.reverse := by
      rcases hr : s.data.reverse with _ | ⟨b, bs⟩
      · rfl
      · have hb : isWS b = false := hlast b (by rw [hr]; rfl)
        rw [List.dropWhile_cons, if_neg (by simp [hb])]
    have : (pyStrip s).data = s.data := by
      show ((s.data.dropWhile isWS).reverse.dropWhile isWS).reverse = s.data
      rw [hdrop, hdrop2, List.reverse_reverse]
    calc pyStrip s = String.mk (pyStrip s).data := rfl
      _ = String.mk s.data := by rw [this]
      _ = s := rfl

/-- Stripping is idempotent. -/
theorem pyStrip_idem (s : String) : pyStrip (pyStrip s) = pyStrip s :=
  pyStrip_eq_self_of (pyStrip s) (pyStrip_head_not_ws s) (pyStrip_getLast_not_ws s)

/-- Two strings with the same character list are equal. -/
theorem string_data_ext {s t : String} (h : s.data = t.data) : s = t := by
  calc s = String.mk s.data := rfl
    _ = String.mk t.data := by rw [h]
    _ = t := rfl

/-- A section's full text (stripped header line, newline, stripped
non-empty body) strips to itself. -/
theorem pyStrip_sectionFullText (h t : String) (hh : pyStrip h = h)
    (ht : pyStrip t = t) (htne : ¬ t = "") :
    pyStrip ((if ¬ h = "" then h ++ "\n" else "") ++ t)
      = (if ¬ h = "" then h ++ "\n" else "") ++ t := by
  have htd : ¬ t.data = [] := fun hcontra => htne (string_data_ext hcontra)
  by_cases hhe : h = ""
  · have he1 : ((if ¬ h = "" then h ++ "\n" else "") ++ t) = t := by
      apply string_data_ext
      simp [hhe, String.data_append]
    rw [he1, ht]
  · have hhd : ¬ h.data = [] := fun hcontra => hhe (string_data_ext hcontra)
    have hif : (if ¬ h = "" then h ++ "\n" else "") = h ++ "\n" := if_pos hhe
    rw [hif]
    have hdat : ((h ++ "\n") ++ t).data = (h.data ++ ['\n']) ++ t.data := by
      simp [String.data_append]
    apply pyStrip_eq_self_of
    · intro c hc
      rw [hdat] at hc
      rw [List.head?_append_of_ne_nil _ (by simp [hhd]),
        List.head?_append_of_ne_nil _ hhd] at hc
      apply pyStrip_head_not_ws h c
      rw [hh]
      exact hc
    · intro c hc
      rw [hdat] at hc
      rw [List.getLast?_append_of_ne_nil _ htd] at hc
      apply pyStrip_getLast_not_ws t c
      rw [ht]
      exact hc

/-! ## C7: the reindexer's chunking versus the strategy module -/

/-- Every header emitted by the section-splitting loop is stripped. -/
theorem mem_split_sections_go_header_stripped (marker : String) :
    ∀ (lines : List String) (header : String) (current : List String),
      pyStrip header = header →
      ∀ p ∈ split_sections_go marker header current lines, pyStrip p.1 = p.1 := by
  intro lines
  induction lines with
  | nil =>
    intro header current hh p hp
    simp only [split_sections_go] at hp
    by_cases hf : sectionFlushable current = true
    · rw [if_pos hf] at hp
      rcases List.mem_singleton.mp hp with rfl
      exact hh
    · rw [if_neg hf] at hp
      exact absurd hp (List.not_mem_nil p)
  | cons l rest ih =>
    intro header current hh p hp
    simp only [split_sections_go] at hp
    by_cases hm : pyStartsWith l marker = true
    · rw [if_pos hm] at hp
      rcases List.mem_append.mp hp with h1 | h1
      · by_cases hf : sectionFlushable current = true
        · rw [if_pos hf] at h1
          rcases List.mem_singleton.mp h1 with rfl
          exact hh
        · rw [if_neg hf] at h1
          exact absurd h1 (List.not_mem_nil p)
      · exact ih _ _ (pyStrip_idem _) p h1
    · rw [if_neg hm] at hp
      exact ih _ _ hh p hp

/-- Helper for C7: under the hypotheses that every section is non-empty,
stripped-headed and within the token ceiling, the `SectionChunker` fold
produces exactly the chunks that `chunk_note` computes by enumeration. -/
theorem sectionChunk_loop_eq (path title : String) (tags : List String) (date : String)
    (config : ChunkConfig) :
    ∀ (ss : List (String × List String)) (idx : ℕ) (acc : List Chunk),
      (∀ s ∈ ss, ¬ pyStrip (pyJoin "\n" s.2) = "") →
      (∀ s ∈ ss, approx_tokens (sectionFullText s) ≤ config.max_tokens) →
      (∀ s ∈ ss, pyStrip s.1 = s.1) →
      (ss.foldl (sectionChunkStep path title tags date config) (acc, idx)).1
        = acc ++ (List.enumFrom idx ss).filterMap (fun p =>
            if pyStrip (pyJoin "\n" p.2.2) = "" then none
            else some { path := path, title := title, tags := tags,
                        directory := directory_of path, modified_date := date,
                        chunk_index := p.1,
                        text := (if ¬ p.2.1 = "" then p.2.1 ++ "\n" else "")
                          ++ pyStrip (pyJoin "\n" p.2.2) }) := by
  intro ss
  induction ss with
  | nil =>
    intro idx acc _ _ _
    simp [List.enumFrom]
  | cons s rest ih =>
    intro idx acc h1 h2 h3
    have hs1 := h1 s (List.mem_cons_self s rest)
    have hs2 := h2 s (List.mem_cons_self s rest)
    have hs3 := h3 s (List.mem_cons_self s rest)
    have hstrip : pyStrip (sectionFullText s) = sectionFullText s := by
      show pyStrip ((if ¬ s.1 = "" then s.1 ++ "\n" else "") ++ pyStrip (pyJoin "\n" s.2))
        = (if ¬ s.1 = "" then s.1 ++ "\n" else "") ++ pyStrip (pyJoin "\n" s.2)
      exact pyStrip_sectionFullText s.1 (pyStrip (pyJoin "\n" s.2)) hs3
        (pyStrip_idem _) hs1
    have hstep : sectionChunkStep path title tags date config (acc, idx) s
        = (acc ++ [{ path := path, title := title, tags := tags,
                     directory := directory_of path, modified_date := date,
                     chunk_index := idx,
                     text := (if ¬ s.1 = "" then s.1 ++ "\n" else "")
                       ++ pyStrip (pyJoin "\n" s.2) }], idx + 1) := by
      unfold sectionChunkStep
      rw [if_neg hs1, if_neg (Nat.not_lt.mpr hs2)]
      unfold make_chunk
      rw [show ((if ¬ s.1 = "" then s.1 ++ "\n" else "") ++ pyStrip (pyJoin "\n" s.2))
          = sectionFullText s from rfl, hstrip]
    rw [List.foldl_cons, hstep,
      ih (idx + 1) _ (fun x hx => h1 x (List.mem_cons_of_mem s hx))
        (fun x hx => h2 x (List.mem_cons_of_mem s hx))
        (fun x hx => h3 x (List.mem_cons_of_mem s hx))]
    have henum : List.enumFrom idx (s :: rest) = (idx, s) :: List.enumFrom (idx + 1) rest := rfl
    rw [henum]
    rw [List.filterMap_cons_some (show _ = some _ by rw [if_neg hs1])]
    rw [List.append_assoc]
    rfl

/-- A `filterMap` whose head element maps to `some` is non-empty. -/
theorem filterMap_cons_ne_nil {α β : Type} (f : α → Option β) (a : α) (l : List α) (b : β)
    (h : f a = some b) : ¬ List.filterMap f (a :: l) = [] := by
  rw [List.filterMap_cons_some h]
  simp

/-- C7 counterexample: for the daily-directory note `daily/log.md` with a
third-level header, the Reindexer's pipeline (`chunk_note`, splitting on
`## `) produces different chunks than the Chunker component's strategy
selection, which picks the date-entry strategy and splits on `### `. -/
theorem C7_counterexample :
    ¬ chunk_note "daily/log.md" "### A\ntext"
        = chunk_with (select_strategy "daily/log.md" "### A\ntext")
            "daily/log.md" "### A\ntext" {} := by
  decide

/-- C7 as amended: the Reindexer's bulk pipeline always chunks with the
section-style `chunk_note`, ignoring the Chunker component's strategy
selection (whose output differs, e.g., on daily-directory notes — see the
counterexample).  The two pipelines agree exactly on the section-strategy
common case: a note outside the daily directory containing a second-level
header, with no frontmatter block, no inline tag line recognised by either
tag parser, and no section exceeding the token ceiling. -/
theorem C7_chunk_note_matches_section_strategy (path content : String)
    (config : ChunkConfig)
    (hfm : pyStartsWith content "---" = false)
    (hdir : ¬ directory_of path = "daily")
    (hsec : containsSub "## " content = true)
    (htagsE : parse_inline_tags_e content = [])
    (htagsV : parse_inline_tags_v content = [])
    (hsize : ∀ s ∈ split_sections "## " (splitLines content),
        approx_tokens (sectionFullText s) ≤ config.max_tokens) :
    chunk_note path content
      = chunk_with (select_strategy path content) path content config := by
  have hsel : select_strategy path content = Strategy.section := by
    simp [select_strategy, hdir, hsec]
  rw [hsel]
  show chunk_note path content = sectionChunkerChunk path content config
  have hpf : parse_frontmatter content = ([], content) := by
    simp [parse_frontmatter, hfm]
  have hpn : parse_note content = ⟨"", "", [], [], content⟩ := by
    simp [parse_note, hpf, dict_pop_val, dict_get, dict_pop_rest, htagsV]
  have hh3 : ∀ s ∈ split_sections "## " (splitLines content), pyStrip s.1 = s.1 :=
    fun s hs => mem_split_sections_go_header_stripped "## " (splitLines content) "" [] rfl s hs
  have hh1 : ∀ s ∈ split_sections "## " (splitLines content),
      ¬ pyStrip (pyJoin "\n" s.2) = "" :=
    fun s hs => mem_split_sections_text_ne "## " (splitLines content) s hs
  unfold chunk_note sectionChunkerChunk
  rw [hpf, hpn]
  have hdg : ∀ k d, dict_get [] k d = d := fun k d => rfl
  simp only [strategyTitle, eq_self_iff_true, if_true, hdg, htagsE]
  by_cases hss : split_sections "## " (splitLines content) = []
  · rw [hss]
    simp only [eq_self_iff_true, if_true]
    unfold make_chunk
    rw [pyStrip_idem]
  · rw [if_neg hss, if_neg hss]
    rw [show (split_sections "## " (splitLines content)).enum
        = List.enumFrom 0 (split_sections "## " (splitLines content)) from rfl]
    rw [sectionChunk_loop_eq path (path_stem path) [] "" config
      (split_sections "## " (splitLines content)) 0 [] hh1 hsize hh3]
    rw [List.nil_append]
    obtain ⟨s, rest, hrest⟩ := List.exists_cons_of_ne_nil hss
    have hs1 : ¬ pyStrip (pyJoin "\n" s.2) = "" := by
      apply hh1
      rw [hrest]
      exact List.mem_cons_self s rest
    have hne2 : ¬ (List.enumFrom 0 (split_sections "## " (splitLines content))).filterMap
        (fun p : ℕ × (String × List String) =>
          if pyStrip (pyJoin "\n" p.2.2) = "" then (none : Option Chunk)
          else some { path := path, title := path_stem path, tags := ([] : List String),
                      directory := directory_of path, modified_date := "",
                      chunk_index := p.1,
                      text := (if ¬ p.2.1 = "" then p.2.1 ++ "\n" else "")
                        ++ pyStrip (pyJoin "\n" p.2.2) }) = [] := by
      rw [hrest]
      rw [show List.enumFrom 0 (s :: rest) = (0, s) :: List.enumFrom 1 rest from rfl]
      apply filterMap_cons_ne_nil
      show (if pyStrip (pyJoin "\n" s.2) = "" then (none : Option Chunk) else _) = _
      rw [if_neg hs1]
    rw [if_neg hne2]

/-- C7 witness: concrete note `notes/a.md` with a preamble and one `## `
section, where both pipelines produce identical chunks. -/
theorem C7_section_strategy_witness :
    chunk_note "notes/a.md" "intro line\n\n## One\nbody one"
      = chunk_with (select_strategy "notes/a.md" "intro line\n\n## One\nbody one")
          "notes/a.md" "intro line\n\n## One\nbody one" {} :=
  C7_chunk_note_matches_section_strategy "notes/a.md" "intro line\n\n## One\nbody one" {}
    (by decide) (by decide) (by decide) (by decide) (by decide) (by decide)

/-! ## C6: rounding lemmas -/

/-- Lower bound of banker's rounding. -/
theorem floor_le_roundHalfEven (x : ℚ) : ⌊x⌋ ≤ roundHalfEven x := by
  simp only [roundHalfEven]
  split_ifs <;> omega

/-- Upper bound of banker's rounding. -/
theorem roundHalfEven_le_floor_add_one (x : ℚ) : roundHalfEven x ≤ ⌊x⌋ + 1 := by
  simp only [roundHalfEven]
  split_ifs <;> omega

/-- Banker's rounding is monotone. -/
theorem roundHalfEven_mono {a b : ℚ} (h : a ≤ b) : roundHalfEven a ≤ roundHalfEven b := by
  have hf : ⌊a⌋ ≤ ⌊b⌋ := Int.floor_mono h
  rcases lt_or_eq_of_le hf with hlt | heq
  · calc roundHalfEven a ≤ ⌊a⌋ + 1 := roundHalfEven_le_floor_add_one a
      _ ≤ ⌊b⌋ := by omega
      _ ≤ roundHalfEven b := floor_le_roundHalfEven b
  · have hr : a - ⌊a⌋ ≤ b - ⌊b⌋ := by
      rw [← heq]
      linarith
    simp only [roundHalfEven]
    rw [← heq]
    split_ifs <;> first | omega | linarith

/-- Rounding an integer changes nothing. -/
theorem roundHalfEven_intCast (k : ℤ) : roundHalfEven (k : ℚ) = k := by
  simp only [roundHalfEven, Int.floor_intCast, sub_self]
  rw [if_pos (by norm_num)]

/-- Three-decimal rounding is monotone. -/
theorem round3_mono {a b : ℚ} (h : a ≤ b) : round3 a ≤ round3 b := by
  unfold round3
  have h1 : roundHalfEven (a * 1000) ≤ roundHalfEven (b * 1000) :=
    roundHalfEven_mono (by linarith)
  have h2 : (roundHalfEven (a * 1000) : ℚ) ≤ (roundHalfEven (b * 1000) : ℚ) := by
    exact_mod_cast h1
  linarith

/-- Three-decimal rounding fixes multiples of `1/1000`. -/
theorem round3_fix {x : ℚ} (h : Is3Mult x) : round3 x = x := by
  obtain ⟨k, rfl⟩ := h
  unfold round3
  rw [show (k : ℚ) / 1000 * 1000 = (k : ℚ) by field_simp, roundHalfEven_intCast]

/-- Three-decimal rounding produces multiples of `1/1000`. -/
theorem is3Mult_round3 (x : ℚ) : Is3Mult (round3 x) := ⟨roundHalfEven (x * 1000), rfl⟩

/-- A `1/1000`-multiple strictly below `x` is at most `round3 x`. -/
theorem mult_le_round3_of_lt {m x : ℚ} (hm : Is3Mult m) (h : m < x) : m ≤ round3 x := by
  calc m = round3 m := (round3_fix hm).symm
    _ ≤ round3 x := round3_mono h.le

/-- Rounding keeps values below a `1/1000`-multiple bound. -/
theorem round3_le_mult_of_le {x m : ℚ} (hm : Is3Mult m) (h : x ≤ m) : round3 x ≤ m := by
  calc round3 x ≤ round3 m := round3_mono h
    _ = m := round3_fix hm

/-! ## C6: sorting lemmas -/

/-- Membership in a score insertion. -/
theorem mem_insertByScore {x o : SRes} {l : List SRes} :
    x ∈ insertByScore o l ↔ x = o ∨ x ∈ l := by
  induction l with
  | nil => simp [insertByScore]
  | cons y ys ih =>
    unfold insertByScore
    by_cases hc : y.score ≤ o.score
    · rw [if_pos hc]
      simp [or_comm, or_left_comm, or_assoc]
    · rw [if_neg hc]
      simp only [List.mem_cons, ih]
      tauto

/-- Score insertion is a permutation of consing. -/
theorem perm_insertByScore (o : SRes) (l : List SRes) :
    (insertByScore o l).Perm (o :: l) := by
  induction l with
  | nil => exact List.Perm.refl _
  | cons y ys ih =>
    unfold insertByScore
    by_cases hc : y.score ≤ o.score
    · rw [if_pos hc]
    · rw [if_neg hc]
      exact List.Perm.trans (List.Perm.cons y ih) (List.Perm.swap o y ys)

/-- The descending sort permutes its input. -/
theorem perm_sortByScore (l : List SRes) : (sortByScore l).Perm l := by
  induction l with
  | nil => exact List.Perm.refl _
  | cons x xs ih =>
    exact List.Perm.trans (perm_insertByScore x (sortByScore xs)) (List.Perm.cons x ih)

/-- Score insertion preserves descending pairwise order. -/
theorem pairwise_insertByScore (o : SRes) (l : List SRes)
    (h : List.Pairwise (fun a b : SRes => b.score ≤ a.score) l) :
    List.Pairwise (fun a b : SRes => b.score ≤ a.score) (insertByScore o l) := by
  induction l with
  | nil => simp [insertByScore]
  | cons y ys ih =>
    rcases List.pairwise_cons.mp h with ⟨hy, hys⟩
    unfold insertByScore
    by_cases hc : y.score ≤ o.score
    · rw [if_pos hc]
      refine List.pairwise_cons.mpr ⟨?_, h⟩
      intro z hz
      rcases List.mem_cons.mp hz with rfl | hz1
      · exact hc
      · exact le_trans (hy z hz1) hc
    · rw [if_neg hc]
      refine List.pairwise_cons.mpr ⟨?_, ih hys⟩
      intro z hz
      rcases mem_insertByScore.mp hz with rfl | hz1
      · exact le_of_lt (lt_of_not_le hc)
      · exact hy z hz1

/-- The descending sort yields descending pairwise order. -/
theorem pairwise_sortByScore (l : List SRes) :
    List.Pairwise (fun a b : SRes => b.score ≤ a.score) (sortByScore l) := by
  induction l with
  | nil => simp [sortByScore]
  | cons x xs ih => exact pairwise_insertByScore x _ ih

/-! ## C6: dict-replacement lemmas for the dedup map -/

/-- Elements of `seenSet` come from the new entry or the old list. -/
theorem mem_seenSet {y o : SRes} {seen : List SRes} (hy : y ∈ seenSet seen o) :
    y = o ∨ y ∈ seen := by
  induction seen with
  | nil =>
    simp only [seenSet, List.mem_singleton] at hy
    exact Or.inl hy
  | cons x xs ih =>
    unfold seenSet at hy
    by_cases hc : x.path = o.path
    · rw [if_pos hc] at hy
      rcases List.mem_cons.mp hy with rfl | hy1
      · exact Or.inl rfl
      · exact Or.inr (List.mem_cons_of_mem x hy1)
    · rw [if_neg hc] at hy
      rcases List.mem_cons.mp hy with rfl | hy1
      · exact Or.inr (List.mem_cons_self _ _)
      · rcases ih hy1 with h1 | h1
        · exact Or.inl h1
        · exact Or.inr (List.mem_cons_of_mem x h1)

/-- The new entry always lands in `seenSet`. -/
theorem self_mem_seenSet (o : SRes) (seen : List SRes) : o ∈ seenSet seen o := by
  induction seen with
  | nil => simp [seenSet]
  | cons x xs ih =>
    unfold seenSet
    by_cases hc : x.path = o.path
    · rw [if_pos hc]
      exact List.mem_cons_self _ _
    · rw [if_neg hc]
      exact List.mem_cons_of_mem x ih

/-- An old entry with a different path survives `seenSet`. -/
theorem mem_seenSet_of_ne {y o : SRes} {seen : List SRes} (hy : y ∈ seen)
    (hne : ¬ y.path = o.path) : y ∈ seenSet seen o := by
  induction seen with
  | nil => exact absurd hy (List.not_mem_nil y)
  | cons x xs ih =>
    unfold seenSet
    by_cases hc : x.path = o.path
    · rw [if_pos hc]
      rcases List.mem_cons.mp hy with rfl | hy1
      · exact absurd hc hne
      · exact List.mem_cons_of_mem o hy1
    · rw [if_neg hc]
      rcases List.mem_cons.mp hy with rfl | hy1
      · exact List.mem_cons_self _ _
      · exact List.mem_cons_of_mem x (ih hy1)

/-- When some entry matches, `seenSet` keeps the path list unchanged. -/
theorem map_path_seenSet {o : SRes} {seen : List SRes}
    (hex : ∃ x ∈ seen, x.path = o.path) :
    (seenSet seen o).map SRes.path = seen.map SRes.path := by
  induction seen with
  | nil =>
    obtain ⟨x, hx, _⟩ := hex
    exact absurd hx (List.not_mem_nil x)
  | cons x xs ih =>
    unfold seenSet
    by_cases hc : x.path = o.path
    · rw [if_pos hc]
      simp [hc]
    · rw [if_neg hc]
      obtain ⟨z, hz, hzp⟩ := hex
      rcases List.mem_cons.mp hz with rfl | hz1
      · exact absurd hzp hc
      · simp [ih ⟨z, hz1, hzp⟩]

/-- With unique paths, a `seenSet` member carrying the new entry's path is
the new entry. -/
theorem eq_of_mem_seenSet_same_path {y o : SRes} {seen : List SRes}
    (hnd : (seen.map SRes.path).Nodup) (hy : y ∈ seenSet seen o)
    (hp : y.path = o.path) : y = o := by
  induction seen with
  | nil =>
    simp only [seenSet, List.mem_singleton] at hy
    exact hy
  | cons x xs ih =>
    rw [List.map_cons, List.nodup_cons] at hnd
    unfold seenSet at hy
    by_cases hc : x.path = o.path
    · rw [if_pos hc] at hy
      rcases List.mem_cons.mp hy with rfl | hy1
      · rfl
      · exact absurd (hp.trans hc.symm ▸ List.mem_map_of_mem SRes.path hy1)
          (by simpa [hp.trans hc.symm] using hnd.1)
    · rw [if_neg hc] at hy
      rcases List.mem_cons.mp hy with rfl | hy1
      · exact absurd hp hc
      · exact ih hnd.2 hy1

/-! ## C6: the dedup fold invariant -/

/-- Unfolding of `dedupStep` when the path is absent from the map. -/
theorem dedupStep_none (distF : Row → ℚ) (query : String) (seen : List SRes) (r : Row)
    (hfind : seen.find? (fun o => o.path = r.path) = none) :
    dedupStep distF query seen r
      = seen ++ [{ path := r.path, title := r.title, directory := r.directory,
                   score := round3 (final_score query r.text (distF r)), text := r.text }] := by
  simp only [dedupStep, hfind]

/-- Unfolding of `dedupStep` when the stored entry is beaten. -/
theorem dedupStep_some_lt (distF : Row → ℚ) (query : String) (seen : List SRes) (r : Row)
    (cur : SRes) (hfind : seen.find? (fun o => o.path = r.path) = some cur)
    (hlt : cur.score < final_score query r.text (distF r)) :
    dedupStep distF query seen r
      = seenSet seen { path := r.path, title := r.title, directory := r.directory,
                       score := round3 (final_score query r.text (distF r)),
                       text := r.text } := by
  simp only [dedupStep, hfind]
  rw [if_pos hlt]

/-- Unfolding of `dedupStep` when the stored entry survives. -/
theorem dedupStep_some_ge (distF : Row → ℚ) (query : String) (seen : List SRes) (r : Row)
    (cur : SRes) (hfind : seen.find? (fun o => o.path = r.path) = some cur)
    (hge : ¬ cur.score < final_score query r.text (distF r)) :
    dedupStep distF query seen r = seen := by
  simp only [dedupStep, hfind]
  rw [if_neg hge]

/-- One step of the dedup fold preserves the invariant. -/
theorem dedupStep_inv (distF : Row → ℚ) (query : String) (processed : List Row)
    (seen : List SRes) (r : Row) (h : DedupInv distF query processed seen) :
    DedupInv distF query (processed ++ [r]) (dedupStep distF query seen r) := by
  obtain ⟨hnd, hent, hcomp⟩ := h
  rcases hfind : seen.find? (fun o => o.path = r.path) with _ | cur
  · rw [dedupStep_none distF query seen r hfind]
    have hnone : ∀ o ∈ seen, ¬ o.path = r.path := by
      intro o ho
      have hq := List.find?_eq_none.mp hfind o ho
      simpa using hq
    refine ⟨?_, ?_, ?_⟩
    · rw [List.map_append, List.nodup_append]
      refine ⟨hnd, by simp, ?_⟩
      intro p hp
      obtain ⟨o, ho, rfl⟩ := List.mem_map.mp hp
      simp only [List.map_cons, List.map_nil, List.mem_singleton]
      exact hnone o ho
    · intro o ho
      rcases List.mem_append.mp ho with ho1 | ho1
      · obtain ⟨⟨r0, hr0, hr0rest⟩, hmax⟩ := hent o ho1
        refine ⟨⟨r0, List.mem_append_left _ hr0, hr0rest⟩, ?_⟩
        intro r' hr' hp
        rcases List.mem_append.mp hr' with hr1 | hr1
        · exact hmax r' hr1 hp
        · rcases List.mem_singleton.mp hr1 with rfl
          exact absurd hp.symm (hnone o ho1)
      · rcases List.mem_singleton.mp ho1 with rfl
        refine ⟨⟨r, List.mem_append_right _ (by simp), rfl, rfl, rfl, rfl, rfl⟩, ?_⟩
        intro r' hr' hp
        rcases List.mem_append.mp hr' with hr1 | hr1
        · obtain ⟨o2, ho2, ho2p⟩ := hcomp r' hr1
          exact absurd (ho2p.trans hp) (hnone o2 ho2)
        · rcases List.mem_singleton.mp hr1 with rfl
          exact le_refl _
    · intro r'' hr''
      rcases List.mem_append.mp hr'' with h1 | h1
      · obtain ⟨o2, ho2, ho2p⟩ := hcomp r'' h1
        exact ⟨o2, List.mem_append_left _ ho2, ho2p⟩
      · rcases List.mem_singleton.mp h1 with rfl
        exact ⟨{ path := r''.path, title := r''.title, directory := r''.directory,
                 score := round3 (final_score query r''.text (distF r'')), text := r''.text },
               List.mem_append_right _ (by simp), rfl⟩
  · have hcur_mem := List.mem_of_find?_eq_some hfind
    have hcur_path : cur.path = r.path := by
      have hq := List.find?_some hfind
      simpa using hq
    have hcur_mult : Is3Mult cur.score := by
      obtain ⟨⟨r0, _, _, _, _, _, hsc⟩, _⟩ := hent cur hcur_mem
      rw [hsc]
      exact is3Mult_round3 _
    by_cases hlt : cur.score < final_score query r.text (distF r)
    · rw [dedupStep_some_lt distF query seen r cur hfind hlt]
      have hex : ∃ x ∈ seen,
          x.path = ({ path := r.path, title := r.title, directory := r.directory,
                      score := round3 (final_score query r.text (distF r)),
                      text := r.text } : SRes).path :=
        ⟨cur, hcur_mem, hcur_path⟩
      refine ⟨?_, ?_, ?_⟩
      · rw [map_path_seenSet hex]
        exact hnd
      · intro o ho
        by_cases hop : o.path = r.path
        · have ho_eq : o = { path := r.path, title := r.title, directory := r.directory,
                             score := round3 (final_score query r.text (distF r)),
                             text := r.text } :=
            eq_of_mem_seenSet_same_path hnd ho hop
          rcases ho_eq with rfl
          refine ⟨⟨r, List.mem_append_right _ (by simp), rfl, rfl, rfl, rfl, rfl⟩, ?_⟩
          intro r' hr' hp
          rcases List.mem_append.mp hr' with hr1 | hr1
          · have hmax_cur := (hent cur hcur_mem).2 r' hr1 (hp.trans hcur_path.symm)
            calc round3 (rowScore distF query r') ≤ cur.score := hmax_cur
              _ ≤ round3 (final_score query r.text (distF r)) :=
                  mult_le_round3_of_lt hcur_mult hlt
          · rcases List.mem_singleton.mp hr1 with rfl
            exact le_refl _
        · have ho_seen : o ∈ seen := by
            rcases mem_seenSet ho with h1 | h1
            · rw [h1] at hop
              exact absurd rfl hop
            · exact h1
          obtain ⟨⟨r0, hr0, hr0rest⟩, hmax⟩ := hent o ho_seen
          refine ⟨⟨r0, List.mem_append_left _ hr0, hr0rest⟩, ?_⟩
          intro r' hr' hp
          rcases List.mem_append.mp hr' with hr1 | hr1
          · exact hmax r' hr1 hp
          · rcases List.mem_singleton.mp hr1 with rfl
            exact absurd hp.symm hop
      · intro r'' hr''
        rcases List.mem_append.mp hr'' with h1 | h1
        · obtain ⟨o2, ho2, ho2p⟩ := hcomp r'' h1
          by_cases ho2r : o2.path = r.path
          · refine ⟨_, self_mem_seenSet _ seen, ?_⟩
            show r.path = r''.path
            rw [← ho2r]
            exact ho2p
          · exact ⟨o2, mem_seenSet_of_ne ho2 ho2r, ho2p⟩
        · rcases List.mem_singleton.mp h1 with rfl
          exact ⟨_, self_mem_seenSet _ seen, rfl⟩
    · rw [dedupStep_some_ge distF query seen r cur hfind hlt]
      refine ⟨hnd, ?_, ?_⟩
      · intro o ho
        obtain ⟨⟨r0, hr0, hr0rest⟩, hmax⟩ := hent o ho
        refine ⟨⟨r0, List.mem_append_left _ hr0, hr0rest⟩, ?_⟩
        intro r' hr' hp
        rcases List.mem_append.mp hr' with hr1 | hr1
        · exact hmax r' hr1 hp
        · rcases List.mem_singleton.mp hr1 with rfl
          have ho_cur : o = cur :=
            List.inj_on_of_nodup_map hnd ho hcur_mem (hp.symm.trans hcur_path.symm)
          rw [ho_cur]
          exact round3_le_mult_of_le hcur_mult (not_lt.mp hlt)
      · intro r'' hr''
        rcases List.mem_append.mp hr'' with h1 | h1
        · exact hcomp r'' h1
        · rcases List.mem_singleton.mp h1 with rfl
          exact ⟨cur, hcur_mem, hcur_path⟩

/-- The dedup fold establishes the invariant over all processed
candidates. -/
theorem dedupFold_inv (distF : Row → ℚ) (query : String) :
    ∀ (cands processed : List Row) (seen : List SRes),
      DedupInv distF query processed seen →
      DedupInv distF query (processed ++ cands)
        (cands.foldl (dedupStep distF query) seen) := by
  intro cands
  induction cands with
  | nil =>
    intro processed seen h
    simpa using h
  | cons c cs ih =>
    intro processed seen h
    have h2 := ih (processed ++ [c]) (dedupStep distF query seen c)
      (dedupStep_inv distF query processed seen c h)
    simpa [List.append_assoc] using h2

/-- C6 as amended: for every distance oracle, query, store and limit,
`hybrid_search` (i) returns `[]` on an empty store, (ii) returns at most
`limit` results, (iii) sorted by non-increasing reported score, (iv) with
pairwise-distinct note paths, and (v) each result comes from one of the
`limit * 4` fetched candidate rows of its path with reported score
`round3` of that row's final score — maximal, under `round3`, among all
fetched candidates of that path.  Rounded scores (three decimals) govern
comparison, sorting and reporting; the claim's exact-score version fails
(see the counterexample). -/
theorem C6_hybrid_search_rounds_scores (distF : Row → ℚ) (query : String)
    (store : List Row) (limit : ℕ) :
    (store = [] → hybrid_search distF query store limit = [])
    ∧ (hybrid_search distF query store limit).length ≤ limit
    ∧ List.Pairwise (fun a b : SRes => b.score ≤ a.score)
        (hybrid_search distF query store limit)
    ∧ ((hybrid_search distF query store limit).map SRes.path).Nodup
    ∧ ∀ o ∈ hybrid_search distF query store limit,
        (∃ r ∈ searchCandidates distF store limit,
            r.path = o.path ∧ r.title = o.title ∧ r.directory = o.directory
              ∧ r.text = o.text ∧ o.score = round3 (rowScore distF query r))
        ∧ ∀ r ∈ searchCandidates distF store limit,
            r.path = o.path → round3 (rowScore distF query r) ≤ o.score := by
  by_cases hstore : store = []
  · subst hstore
    refine ⟨fun _ => rfl, ?_, ?_, ?_, ?_⟩ <;> simp [hybrid_search]
  · have hout : hybrid_search distF query store limit
        = (sortByScore ((searchCandidates distF store limit).foldl
            (dedupStep distF query) [])).take limit := by
      simp only [hybrid_search, searchCandidates]
      rw [if_neg (by simpa [List.length_eq_zero] using hstore)]
    have hinv : DedupInv distF query (searchCandidates distF store limit)
        ((searchCandidates distF store limit).foldl (dedupStep distF query) []) := by
      have h0 : DedupInv distF query [] [] := by
        refine ⟨by simp, ?_, ?_⟩ <;> simp
      simpa using dedupFold_inv distF query (searchCandidates distF store limit) [] [] h0
    obtain ⟨hnd, hent, _⟩ := hinv
    refine ⟨fun hcontra => absurd hcontra hstore, ?_, ?_, ?_, ?_⟩
    · rw [hout]
      exact List.length_take_le _ _
    · rw [hout]
      exact (pairwise_sortByScore _).sublist (List.take_sublist _ _)
    · rw [hout]
      have hperm := (perm_sortByScore ((searchCandidates distF store limit).foldl
        (dedupStep distF query) [])).map SRes.path
      have hnd2 : ((sortByScore ((searchCandidates distF store limit).foldl
          (dedupStep distF query) [])).map SRes.path).Nodup :=
        hperm.nodup_iff.mpr hnd
      exact hnd2.sublist ((List.take_sublist _ _).map SRes.path)
    · intro o ho
      rw [hout] at ho
      have ho2 : o ∈ sortByScore ((searchCandidates distF store limit).foldl
          (dedupStep distF query) []) := (List.take_sublist _ _).subset ho
      have ho3 : o ∈ (searchCandidates distF store limit).foldl
          (dedupStep distF query) [] := (perm_sortByScore _).subset ho2
      exact hent o ho3

/-- C6 witness: the empty-store short circuit at a concrete query. -/
theorem C6_hybrid_search_witness :
    hybrid_search (fun _ => 0) "kubernetes" [] 5 = [] :=
  (C6_hybrid_search_rounds_scores (fun _ => 0) "kubernetes" [] 5).1 rfl

/-- C6 counterexample: two chunks of the same note path with final scores
`0.5004` (`cexRow1`) and `0.5002` (`cexRow2`), no keyword boost.  The claim
says the highest-scoring row per path is kept and reported with its final
score; the code stores scores rounded to three decimals (`round(score, 3)`)
and compares a later chunk's exact score against the stored rounded value,
so the strictly lower-scoring second chunk replaces the first and the
reported score is `0.5` — neither the claimed row nor the claimed score. -/
theorem C6_counterexample :
    final_score "q" cexRow1.text (cexDist cexRow1)
      > final_score "q" cexRow2.text (cexDist cexRow2)
    ∧ hybrid_search cexDist "q" [cexRow1, cexRow2] 10 = [cexO2] := by
  have hb1 : keyword_boost "q" (pyLower "t1") = 0 := by decide
  have hb2 : keyword_boost "q" (pyLower "t2") = 0 := by decide
  have hfs1 : final_score "q" "t1" ((4996 : ℚ)/10000) = 5004/10000 := by
    simp only [final_score, hb1]
    norm_num [max_def, min_def]
  have hfs2 : final_score "q" "t2" ((4998 : ℚ)/10000) = 5002/10000 := by
    simp only [final_score, hb2]
    norm_num [max_def, min_def]
  have hfl1 : ⌊(5004 : ℚ)/10000 * 1000⌋ = 500 := by
    rw [Int.floor_eq_iff]
    constructor <;> norm_num
  have hfl2 : ⌊(5002 : ℚ)/10000 * 1000⌋ = 500 := by
    rw [Int.floor_eq_iff]
    constructor <;> norm_num
  have hro1 : round3 ((5004 : ℚ)/10000) = 1/2 := by
    simp only [round3, roundHalfEven, hfl1]
    rw [if_pos (by norm_num)]
    norm_num
  have hro2 : round3 ((5002 : ℚ)/10000) = 1/2 := by
    simp only [round3, roundHalfEven, hfl2]
    rw [if_pos (by norm_num)]
    norm_num
  constructor
  · show final_score "q" "t1" ((4996 : ℚ)/10000) > final_score "q" "t2" ((4998 : ℚ)/10000)
    rw [hfs1, hfs2]
    norm_num
  have hstep1 : dedupStep cexDist "q" [] cexRow1 = [cexO1] := by
    rw [dedupStep_none cexDist "q" [] cexRow1 rfl]
    show [({ path := "a.md", title := "T", directory := "",
             score := round3 (final_score "q" "t1" ((4996 : ℚ)/10000)),
             text := "t1" } : SRes)] = [cexO1]
    rw [hfs1, hro1]
    rfl
  have hstep2 : dedupStep cexDist "q" [cexO1] cexRow2 = [cexO2] := by
    have hfind : [cexO1].find? (fun o => o.path = cexRow2.path) = some cexO1 := rfl
    have hlt : cexO1.score < final_score "q" cexRow2.text (cexDist cexRow2) := by
      show (1 : ℚ)/2 < final_score "q" "t2" ((4998 : ℚ)/10000)
      rw [hfs2]
      norm_num
    rw [dedupStep_some_lt cexDist "q" [cexO1] cexRow2 cexO1 hfind hlt]
    show seenSet [cexO1] ({ path := "a.md", title := "T", directory := "",
                            score := round3 (final_score "q" "t2" ((4998 : ℚ)/10000)),
                            text := "t2" } : SRes) = [cexO2]
    rw [hfs2, hro2]
    rfl
  have hsort : sortByDist cexDist [cexRow1, cexRow2] = [cexRow1, cexRow2] := by
    show insertByDist cexDist cexRow1 [cexRow2] = [cexRow1, cexRow2]
    unfold insertByDist
    rw [if_pos (by show (4996 : ℚ)/10000 ≤ 4998/10000
                   norm_num)]
  simp only [hybrid_search]
  rw [if_neg (by simp)]
  rw [hsort]
  rw [show List.take (10 * 4) [cexRow1, cexRow2] = [cexRow1, cexRow2] from rfl]
  rw [List.foldl_cons, hstep1, List.foldl_cons, hstep2, List.foldl_nil]
  rfl

end Alaya
